import Mathlib

/-!
# Verification of the plan4res/Tools investment engine

This file gives a shallow embedding, in Lean 4, of the components of the
`InvestmentFunction` (src/investment_solver/InvestmentFunction.{h,cpp}) and of
the inter-stage state bridge of `investment_solver.cpp` that the claims under
scrutiny are about, together with theorems settling those claims.

Modelling conventions:

* machine floating-point numbers (`double` / `Function::FunctionValue`) are
  modelled by rationals `ℚ`; the IEEE special values are modelled explicitly:
  a `NaN` slot of the global pool is an `Option ℚ` that is `none`, an infinite
  bound is an `Option ℚ` that is `none`, and the `±∞` produced by
  `worst_value()` is a dedicated constructor of the `FVal` type;
* C++ exceptions are modelled by `Except`: a function that may throw returns
  `Except E α`;
* the inner operational model (`SDDPBlock`, its scenarios and the dual-based
  linearization contributions accumulated by `update_linearization`) is out of
  the specification's scope; each scenario evaluation is abstracted as a
  `ScenOutcome`: the solver either produces no primal solution, or produces a
  value together with a linearization update that either throws or yields a
  per-component contribution;
* the OpenMP scenario loop is embedded sequentially (its contributions are
  combined associatively, so the sequential order is one admissible schedule);
  the per-iteration lock protocol on the sub-Block slots (`lock_sub_block` /
  `unlock_sub_block`) is modelled by an explicit vector of lock flags.
-/

namespace InvestmentFunction

/-- The two sides of a two-sided linear constraint: `eLHS` (lower bound) and
`eRHS` (upper bound) of the source. -/
inductive Side where
  | lhs
  | rhs
deriving DecidableEq, Repr

/-- The objective sense of the inner Block (`Objective::eMin` / `eMax`). -/
inductive Sense where
  | min
  | max
deriving DecidableEq, Repr

/-- A `double` function value extended with the two infinities that
`worst_value()` can produce. -/
inductive FVal where
  | fin (v : ℚ)
  | posInf
  | negInf
deriving DecidableEq, Repr

/-- The worst possible value: `+Inf` if the sense of the Objective of the
inner Block is minimization and `-Inf` otherwise
(`InvestmentFunction::worst_value`). -/
def worstValue : Sense → FVal
  | .min => .posInf
  | .max => .negInf

/-- Status codes returned by `compute` (`kOK`, `kError`, `kUnEval` of
`ThinComputeInterface`). -/
inductive CStatus where
  | kOK
  | kError
  | kUnEval
deriving DecidableEq, Repr

/-- Errors thrown by the global pool operations
(`std::invalid_argument` in the source, distinguished by their messages). -/
inductive PoolError where
  /-- "invalid global pool name" -/
  | invalidName
  /-- "linear combination is empty" -/
  | emptyCombination
  /-- "invalid coefficient for linearization with name ..." -/
  | invalidCoefficient
  /-- "a non-convex combination of diagonal linearizations has been provided" -/
  | nonConvexCombination
deriving DecidableEq, Repr

/-! ## GlobalPool

`InvestmentFunction::GlobalPool` stores, slot by slot, a linearization
constant (`NaN` marking an empty slot, modelled by `none`), a coefficient
vector, and a diagonality flag. -/

/-- The global pool of linearizations: three parallel vectors
(`linearization_constants`, `linearization_coefficients`, `is_diagonal`). -/
structure GlobalPool where
  linearization_constants : List (Option ℚ)
  linearization_coefficients : List (List ℚ)
  is_diagonal : List Bool
deriving DecidableEq, Repr

namespace GlobalPool

/-- `GlobalPool::size`: the capacity of the pool. -/
def size (p : GlobalPool) : ℕ := p.linearization_constants.length

/-- `GlobalPool::store`: overwrite slot `name` with the given constant,
coefficients and diagonality flag.  The source throws on `name >= size()`;
that guard is kept by the callers modelled below. -/
def store (p : GlobalPool) (constant : Option ℚ) (coefficients : List ℚ)
    (name : ℕ) (diagonal_linearization : Bool) : GlobalPool where
  linearization_constants := p.linearization_constants.set name constant
  linearization_coefficients := p.linearization_coefficients.set name coefficients
  is_diagonal := p.is_diagonal.set name diagonal_linearization

/-- `GlobalPool::is_linearization_there`: a slot holds a linearization iff its
name is valid and its constant is not `NaN`. -/
def is_linearization_there (p : GlobalPool) (name : ℕ) : Bool :=
  decide (name < p.size) && (p.linearization_constants.getD name none).isSome

/-- `GlobalPool::is_linearization_vertical`: present and not diagonal. -/
def is_linearization_vertical (p : GlobalPool) (name : ℕ) : Bool :=
  p.is_linearization_there name && !(p.is_diagonal.getD name false)

/-- `GlobalPool::get_linearization_constant` (the value of a present slot, the
`NaN` of an empty one; the source throws on an invalid name). -/
def get_linearization_constant (p : GlobalPool) (name : ℕ) : Option ℚ :=
  p.linearization_constants.getD name none

/-- `GlobalPool::delete_linearization`: set the constant to `NaN` and clear
the coefficients. -/
def delete_linearization (p : GlobalPool) (name : ℕ) : GlobalPool where
  linearization_constants := p.linearization_constants.set name none
  linearization_coefficients := p.linearization_coefficients.set name []
  is_diagonal := p.is_diagonal

/-- NaN-propagating addition on modelled doubles. -/
def nanAdd : Option ℚ → Option ℚ → Option ℚ
  | some x, some y => some (x + y)
  | _, _ => none

/-- NaN-propagating multiplication of a modelled double by a real
coefficient (in IEEE arithmetic `c * NaN` is `NaN` for every `c`). -/
def nanMul (c : ℚ) : Option ℚ → Option ℚ
  | some x => some (c * x)
  | none => none

/-- The local lambda `combine` inside
`store_combination_of_linearizations`: `x[i] += multiplier * y[i]` for every
`i < x.size()` (the source asserts `x.size() == y.size()`). -/
def combineVec (x y : List ℚ) (multiplier : ℚ) : List ℚ :=
  x.zipWith (fun a b => a + multiplier * b) y

/-- The accumulator threaded through the loop of
`store_combination_of_linearizations`. -/
structure CombAcc where
  diagonal_linearization : Bool
  coefficients : List ℚ
  constant : Option ℚ
  coeff_sum_diagonal : ℚ
deriving DecidableEq, Repr

/-- One iteration of the loop of `store_combination_of_linearizations` over a
`(name, coefficient)` pair: reject a coefficient below `-AAccMlt`; otherwise,
if the coefficient accumulator is still empty, only resize it to the summand's
size filled with zeros (this is the branch taken verbatim from the source: the
summand's own contribution is *not* added in this case), else add
`coefficient * summand` into it; accumulate the constant and the sum of the
multipliers of diagonal summands. -/
def combStep (p : GlobalPool) (AAccMlt : ℚ) (acc : CombAcc) (nc : ℕ × ℚ) :
    Except PoolError CombAcc :=
  let linearization_name := nc.1
  let coeff := nc.2
  if coeff < -AAccMlt then
    .error .invalidCoefficient
  else
    let cs := p.linearization_coefficients.getD linearization_name []
    let coefficients :=
      if acc.coefficients.isEmpty then List.replicate cs.length 0
      else combineVec acc.coefficients cs coeff
    let constant :=
      nanAdd acc.constant (nanMul coeff (p.linearization_constants.getD linearization_name none))
    if p.is_diagonal.getD linearization_name false then
      .ok { diagonal_linearization := true, coefficients := coefficients,
            constant := constant, coeff_sum_diagonal := acc.coeff_sum_diagonal + coeff }
    else
      .ok { acc with coefficients := coefficients, constant := constant }

/-- The loop of `store_combination_of_linearizations` over the whole linear
combination. -/
def combLoop (p : GlobalPool) (AAccMlt : ℚ) (acc : CombAcc) :
    List (ℕ × ℚ) → Except PoolError CombAcc
  | [] => .ok acc
  | nc :: rest => do
    let acc' ← combStep p AAccMlt acc nc
    combLoop p AAccMlt acc' rest

/-- `GlobalPool::store_combination_of_linearizations`: store at slot `name` a
linear combination of the pool entries named in `linear_combination`, checking
the multiplier rules with tolerance `AAccMlt`. -/
def store_combination_of_linearizations (p : GlobalPool)
    (linear_combination : List (ℕ × ℚ)) (name : ℕ) (AAccMlt : ℚ) :
    Except PoolError GlobalPool :=
  if name ≥ p.size then .error .invalidName
  else if linear_combination.isEmpty then .error .emptyCombination
  else do
    let acc ← combLoop p AAccMlt
      { diagonal_linearization := false, coefficients := [],
        constant := some 0, coeff_sum_diagonal := 0 } linear_combination
    if acc.diagonal_linearization ∧
        |(1 : ℚ) - acc.coeff_sum_diagonal| > AAccMlt * linear_combination.length then
      .error .nonConvexCombination
    else
      .ok (p.store acc.constant acc.coefficients name acc.diagonal_linearization)

/-- `GlobalPool::get_linearization_coefficients` (dense range read): entry `i`
of the stored coefficient vector, for `i` in `[range.1, range.2)`. -/
def get_linearization_coefficients (p : GlobalPool) (range : ℕ × ℕ) (name : ℕ) :
    List ℚ :=
  ((List.range range.2).drop range.1).map
    (fun i => (p.linearization_coefficients.getD name []).getD i 0)

end GlobalPool

/-! ## The state of an `InvestmentFunction`

The fields below embed the protected fields of the class that the claims
refer to.  The active variables `v_x` are `ColVariable`s; only their current
values matter here, so `x` holds those values directly.  The vectors of
variable lower bounds and of two-sided constraint bounds hold `Option ℚ`,
with `none` standing for an infinite bound. -/

/-- The type of an asset (`InvestmentFunction::AssetType`). -/
inductive AssetType where
  | eUnitBlock
  | eLine
deriving DecidableEq, Repr

/-- The data of an `InvestmentFunction` relevant to the claims:
decision-vector values, (reformulated) bounds, the linear side constraints
`v_A` with bounds `v_constraints_lower_bound` / `v_constraints_upper_bound`,
asset descriptors and costs, and the tuning flags read by `compute`. -/
structure IFState where
  /-- the current values of the active variables `v_x` -/
  x : List ℚ
  /-- `v_lower_bound` (`none` = minus infinity) -/
  lowerBound : List (Option ℚ)
  /-- `v_A`: one coefficient row per linear side constraint -/
  A : List (List ℚ)
  /-- `v_constraints_lower_bound` (`none` = minus infinity) -/
  constraintsLowerBound : List (Option ℚ)
  /-- `v_constraints_upper_bound` (`none` = plus infinity) -/
  constraintsUpperBound : List (Option ℚ)
  /-- `f_constraints_tolerance` (default `1.0e-6`) -/
  constraintsTolerance : ℚ
  /-- `f_reformulated_bounds` -/
  reformulatedBounds : Bool
  /-- `v_installed_quantity` -/
  installedQuantity : List ℚ
  /-- `v_cost` -/
  cost : List ℚ
  /-- `v_disinvestment_cost` -/
  disinvestmentCost : List ℚ
  /-- `v_asset_indices` -/
  assetIndices : List ℕ
  /-- `v_asset_type` -/
  assetType : List AssetType
  /-- `f_compute_linearization` (parameter `compute_linearization`, default 1) -/
  computeLinearization : Bool
  /-- `f_num_sub_blocks`: the number of (identical) sub-Blocks -/
  numSubBlocks : ℕ
  /-- the Objective sense of the inner Block -/
  sense : Sense
deriving DecidableEq, Repr

namespace IFState

/-- `InvestmentFunction::get_var_value(i, actual)`: the value of the `i`-th
active variable, shifted back by its finite lower bound when the bounds were
reformulated and the actual (internal) value was not requested. -/
def get_var_value (s : IFState) (i : ℕ) (actual : Bool) : ℚ :=
  match s.reformulatedBounds, actual, s.lowerBound.getD i none with
  | true, false, some l => s.x.getD i 0 + l
  | _, _, _ => s.x.getD i 0

/-- `InvestmentFunction::get_var_lower_bound`. -/
def get_var_lower_bound (s : IFState) (i : ℕ) : Option ℚ :=
  s.lowerBound.getD i none

/-- `InvestmentFunction::get_cost` (0 beyond the vector's size). -/
def get_cost (s : IFState) (i : ℕ) : ℚ := s.cost.getD i 0

/-- `InvestmentFunction::get_disinvestment_cost` (0 beyond the vector's
size). -/
def get_disinvestment_cost (s : IFState) (i : ℕ) : ℚ :=
  s.disinvestmentCost.getD i 0

/-- `InvestmentFunction::get_installed_quantity` (1 when the vector is
empty). -/
def get_installed_quantity (s : IFState) (asset : ℕ) : ℚ :=
  if s.installedQuantity.isEmpty then 1 else s.installedQuantity.getD asset 0

/-- `InvestmentFunction::compute_linear_constraint_value`: `a_i · x` with the
external (shifted-back) variable values. -/
def compute_linear_constraint_value (s : IFState) (i : ℕ) : ℚ :=
  (((s.A.getD i []).enum).map (fun jc => jc.2 * s.get_var_value jc.1 false)).sum

/-- The violation test of one side of row `i` performed by `is_feasible`:
positive violation, scaled by `max(1, |bound|)`, compared with the
tolerance.  The lower side is checked first; the first violated side of the
first violated row halts the scan. -/
def rowViolation (s : IFState) (i : ℕ) : Option Side :=
  let constraint_value := s.compute_linear_constraint_value i
  let lower : Option Side :=
    match s.constraintsLowerBound.getD i none with
    | some l =>
      let lower_violation := l - constraint_value
      if 0 < lower_violation ∧
          s.constraintsTolerance < lower_violation / max 1 |l| then some .lhs
      else none
    | none => none
  match lower with
  | some side => some side
  | none =>
    match s.constraintsUpperBound.getD i none with
    | some u =>
      let upper_violation := constraint_value - u
      if 0 < upper_violation ∧
          s.constraintsTolerance < upper_violation / max 1 |u| then some .rhs
      else none
    | none => none

/-- The scan of `InvestmentFunction::is_feasible`, started at row `start`:
the first `(row, side)` whose relative violation exceeds the tolerance, or
`none` when every remaining row passes (`is_feasible` returns `true` exactly
when this is `none`). -/
def findViolation (s : IFState) (start : ℕ) : Option (ℕ × Side) :=
  ((List.range s.A.length).drop start).findSome?
    (fun i => (s.rowViolation i).map (fun side => (i, side)))

/-- `is_feasible` as called at the start of `compute` (the scan starts at the
first row because `compute` resets `f_violated_constraint` just before). -/
def is_feasible (s : IFState) : Bool := (s.findViolation 0).isNone

end IFState

/-! ## The scenario loop of `compute`

Each scenario evaluation drives an inner `SDDPGreedySolver` on a locked
sub-Block; what the loop observes of it is whether a primal solution exists,
the scenario objective value, and the linearization contribution accumulated
by `update_linearization` (which may throw, e.g. when a dual solution is
unavailable).  That interaction is abstracted by `ScenOutcome`. -/

/-- The outcome of solving one scenario on a sub-Block: either the solver
produced no primal solution, or it produced a value together with the result
of the `update_linearization` call (`Except.error` modelling a thrown
exception, `Except.ok g` the per-component contribution added to
`v_linearization`). -/
inductive ScenOutcome where
  | noSolution
  | ok (value : ℚ) (linUpdate : Except Unit (List ℚ))
deriving Repr

namespace ScenOutcome

/-- An outcome on which the loop body sets the interrupt flag when the
linearization is being computed: no primal solution, or a linearization
update that throws. -/
def isFailure : ScenOutcome → Bool
  | .noSolution => true
  | .ok _ (.error _) => true
  | .ok _ (.ok _) => false

end ScenOutcome

/-- The state threaded through the scenario loop: the interrupt flag, the
`simulation_value` reduction, the shared `v_linearization` accumulator, the
`is_locked` flags of the sub-Blocks, and the number of scenarios whose solver
was invoked. -/
structure LoopState where
  interrupt : Bool
  simulationValue : ℚ
  linearization : List ℚ
  locks : List Bool
  evaluated : ℕ
deriving DecidableEq, Repr

namespace LoopState

/-- `InvestmentFunction::lock_sub_block`, sequentially: the first unlocked
sub-Block is locked and its index returned.  (The source spins, briefly
sleeping, until a slot frees; in the sequential embedding a slot is always
free at loop entry, so the spin never occurs — see
`scenarioLoop_locks_all_free`.) -/
def lockSubBlock (locks : List Bool) : Option (ℕ × List Bool) :=
  match locks.findIdx? (fun l => l = false) with
  | some i => some (i, locks.set i true)
  | none => none

/-- `InvestmentFunction::unlock_sub_block`. -/
def unlockSubBlock (locks : List Bool) (i : ℕ) : List Bool := locks.set i false

/-- One iteration of the scenario loop of `compute` (lines 1067–1122 of
InvestmentFunction.cpp): skip when interrupted; lock a sub-Block; if the
solver has no primal solution, unlock and interrupt; otherwise, when
`f_compute_linearization` is set, run `update_linearization` — on a thrown
exception unlock and interrupt — then accumulate the scenario value and
unlock.  (If no slot were free the source would spin; that branch is
unreachable sequentially and is embedded as a skip.) -/
def loopIter (computeLin : Bool) (st : LoopState) (o : ScenOutcome) : LoopState :=
  if st.interrupt then st
  else
    match lockSubBlock st.locks with
    | none => st
    | some (k, locked) =>
      match o with
      | .noSolution =>
        { st with interrupt := true, locks := unlockSubBlock locked k,
                  evaluated := st.evaluated + 1 }
      | .ok v lu =>
        if computeLin then
          match lu with
          | .error _ =>
            { st with interrupt := true, locks := unlockSubBlock locked k,
                      evaluated := st.evaluated + 1 }
          | .ok g =>
            { interrupt := st.interrupt,
              simulationValue := st.simulationValue + v,
              linearization := st.linearization.zipWith (· + ·) g,
              locks := unlockSubBlock locked k,
              evaluated := st.evaluated + 1 }
        else
          { st with simulationValue := st.simulationValue + v,
                    locks := unlockSubBlock locked k,
                    evaluated := st.evaluated + 1 }

end LoopState

/-- The whole scenario loop, folded sequentially over the scenarios, starting
from the reset `v_linearization` (all zeros, one entry per active variable)
and all sub-Blocks unlocked. -/
def scenarioLoop (computeLin : Bool) (numSubBlocks : ℕ) (numVar : ℕ)
    (scen : List ScenOutcome) : LoopState :=
  scen.foldl (LoopState.loopIter computeLin)
    { interrupt := false, simulationValue := 0,
      linearization := List.replicate numVar 0,
      locks := List.replicate numSubBlocks false, evaluated := 0 }

/-- What a call of `compute` leaves behind, as observable through the public
interface: its return status, the function value `f_value` guarded by
`f_has_value`, the flags feeding `has_linearization`, the recorded violated
constraint side, the final `v_linearization`, the final sub-Block lock flags,
how many scenario solves were started, and whether the `eBeforeTermination`
event handlers were fired.  `compute` returns normally on every path of the
embedding: the exceptions of the scenario loop are caught inside it. -/
structure ComputeResult where
  status : CStatus
  hasValue : Bool
  value : FVal
  hasDiagonalLinearization : Bool
  violatedConstraint : Option (ℕ × Side)
  linearization : List ℚ
  locks : List Bool
  scenariosEvaluated : ℕ
  eventsFired : Bool
deriving DecidableEq, Repr

namespace IFState

/-- The loop over the assets at lines 1161–1180 of InvestmentFunction.cpp:
the linear investment/disinvestment term added to the value. -/
def linearTermValue (s : IFState) (i : ℕ) : ℚ :=
  let installed_quantity := s.get_installed_quantity i
  let x := s.get_var_value i false
  if x > installed_quantity then s.get_cost i * (x - installed_quantity)
  else s.get_disinvestment_cost i * (installed_quantity - x)

/-- The loop over the assets at lines 1161–1180 of InvestmentFunction.cpp:
the term added to component `i` of the linearization. -/
def linearTermDelta (s : IFState) (i : ℕ) : ℚ :=
  let installed_quantity := s.get_installed_quantity i
  let x := s.get_var_value i false
  if x > installed_quantity then s.get_cost i else -s.get_disinvestment_cost i

/-- `InvestmentFunction::compute` on a fresh evaluation (`changedvars` true):
reset the linearization and the flags, run the feasibility gate; when a
linear side constraint is violated publish `worst_value` with no scenario
evaluation; otherwise run the scenario loop — interrupted on any failure, in
which case release every sub-Block and publish `worst_value` with status
`kError` — and on success average over the scenarios and add the linear
investment/disinvestment term.  Event handlers fire on every exit path.
(The inner-Block locking, the identity lending to the inner solvers and
the rescaling of the operational model by `update_blocks` are abstracted
as succeeding; their failure paths mirror the scenario-failure path.) -/
def compute (s : IFState) (scen : List ScenOutcome) : ComputeResult :=
  match s.findViolation 0 with
  | some vc =>
    { status := .kOK, hasValue := true, value := worstValue s.sense,
      hasDiagonalLinearization := false, violatedConstraint := some vc,
      linearization := List.replicate s.x.length 0,
      locks := List.replicate s.numSubBlocks false,
      scenariosEvaluated := 0, eventsFired := true }
  | none =>
    let final := scenarioLoop s.computeLinearization s.numSubBlocks
      s.x.length scen
    if final.interrupt then
      { status := .kError, hasValue := false, value := worstValue s.sense,
        hasDiagonalLinearization := false, violatedConstraint := none,
        linearization := final.linearization,
        locks := List.replicate final.locks.length false,
        scenariosEvaluated := final.evaluated, eventsFired := true }
    else
      let num_scenarios : ℚ := scen.length
      let averaged := final.linearization.map (· / num_scenarios)
      { status := .kOK, hasValue := true,
        value := .fin (final.simulationValue / num_scenarios +
          ((List.range s.x.length).map s.linearTermValue).sum),
        hasDiagonalLinearization := s.computeLinearization,
        violatedConstraint := none,
        linearization := (averaged.enum).map (fun ig => ig.2 + s.linearTermDelta ig.1),
        locks := final.locks,
        scenariosEvaluated := final.evaluated, eventsFired := true }

/-- `InvestmentFunction::has_linearization(diagonal)` after a `compute`:
diagonal requested — the flag set by a successful evaluation; vertical
requested — whether a violated side constraint was recorded (in which case
the source also materializes the vertical coefficients, see
`vertical_linearization_coefficients`). -/
def has_linearization (res : ComputeResult) (diagonal : Bool) : Bool :=
  if diagonal then res.hasDiagonalLinearization
  else (res.violatedConstraint).isSome

/-- The sign applied to the violated row: `-1` for the lower side (`eLHS`),
`+1` for the upper side. -/
def sideSign : Side → ℚ
  | .lhs => -1
  | .rhs => 1

/-- The vertical linearization coefficients materialized by
`has_linearization(false)` / `get_linearization_coefficients`:
`sign * v_A[i][j]` for every active-variable index `j`. -/
def vertical_linearization_coefficients (s : IFState) (i : ℕ) (side : Side) :
    List ℚ :=
  (List.range s.x.length).map (fun j => sideSign side * (s.A.getD i []).getD j 0)

/-- The `alpha` accumulated by `get_linearization_constant` for a vertical
linearization: under reformulated bounds, `Σ_j v_A[i][j] * v_lower_bound[j]`
over the components with a finite lower bound; 0 otherwise. -/
def verticalAlpha (s : IFState) (i : ℕ) : ℚ :=
  if s.reformulatedBounds then
    (((s.A.getD i []).enum).map (fun jc =>
      match s.lowerBound.getD jc.1 none with
      | some l => jc.2 * l
      | none => 0)).sum
  else 0

/-- `InvestmentFunction::get_linearization_constant` on the vertical branch
(violated row `i`, violated `side`): `ℓ_i - alpha` for the lower side,
`alpha - u_i` for the upper side.  The result is `none` when the violated
side's bound is infinite (the source would produce an infinite double; a
recorded violation implies a finite bound, see
`findViolation_lower_bound_finite`). -/
def vertical_linearization_constant (s : IFState) (i : ℕ) (side : Side) :
    Option ℚ :=
  let alpha := s.verticalAlpha i
  match side with
  | .lhs => (s.constraintsLowerBound.getD i none).map (fun l => l - alpha)
  | .rhs => (s.constraintsUpperBound.getD i none).map (fun u => alpha - u)

/-- `InvestmentFunction::get_linearization_constant` on the diagonal branch:
`f_value - Σ_i v_linearization[i] * get_var_value(i)` — note the *actual*
(internal, unshifted) variable values. -/
def diagonal_linearization_constant (s : IFState) (value : ℚ)
    (linearization : List ℚ) : ℚ :=
  value - ((linearization.enum).map (fun ig => ig.2 * s.get_var_value ig.1 true)).sum

/-- `InvestmentFunction::is_convex`. -/
def is_convex (_ : IFState) : Bool := true

/-- `InvestmentFunction::is_concave`. -/
def is_concave (_ : IFState) : Bool := false

end IFState

/-! ## Removing variables

`remove_variable(i)` erases entry `i` from `v_x`, `v_asset_indices` and
`v_asset_type` (and only from those three); the two `remove_variables`
overloads additionally erase from `v_cost` and `v_disinvestment_cost`.
No removal operation modifies `v_A`. -/

/-- An invalid variable index or subset (`std::logic_error` /
`std::invalid_argument` in the source). -/
inductive VarError where
  | invalidIndex
deriving DecidableEq, Repr

namespace IFState

/-- `InvestmentFunction::remove_variable(i)`: erase the `i`-th entry of
`v_x`, `v_asset_indices` and `v_asset_type`; throw on an invalid index.
(`v_cost`, `v_disinvestment_cost` and `v_A` are left untouched by the
source.) -/
def remove_variable (s : IFState) (i : ℕ) : Except VarError IFState :=
  if i ≥ s.x.length then .error .invalidIndex
  else .ok { s with
    x := s.x.eraseIdx i
    assetIndices := s.assetIndices.eraseIdx i
    assetType := s.assetType.eraseIdx i }

/-- Erasing the index range `[a, b)` from a vector
(`v.erase(v.begin() + a, v.begin() + b)`). -/
def eraseRange (l : List α) (a b : ℕ) : List α := l.take a ++ l.drop b

/-- `InvestmentFunction::remove_variables(range)`: clip the range to the
number of active variables; an empty clipped range is a no-op; the full
range clears `v_x`, `v_asset_indices`, `v_asset_type`, `v_cost` and
`v_disinvestment_cost`; otherwise the clipped range is erased from those
five vectors.  `v_A` is untouched. -/
def removeVariablesRange (s : IFState) (range : ℕ × ℕ) : IFState :=
  let second := min range.2 s.x.length
  if second ≤ range.1 then s
  else if range.1 = 0 ∧ second = s.x.length then
    { s with x := [], assetIndices := [], assetType := [],
             cost := [], disinvestmentCost := [] }
  else
    { s with
      x := eraseRange s.x range.1 second
      assetIndices := eraseRange s.assetIndices range.1 second
      assetType := eraseRange s.assetType range.1 second
      cost := eraseRange s.cost range.1 second
      disinvestmentCost := eraseRange s.disinvestmentCost range.1 second }

/-- The file-local helper `compact(x, indices)`: drop the entries of `x`
whose positions appear in the ordered `indices`, then resize to
`x.size() - indices.size()`. -/
def compact (x : List α) (indices : List ℕ) : List α :=
  ((x.enum.filter (fun p => p.1 ∉ indices)).map Prod.snd).take
    (x.length - indices.length)

/-- `InvestmentFunction::remove_variables(subset, ordered)`: an empty subset
clears the five vectors (silently doing nothing when there is no variable);
otherwise the subset is sorted if not already ordered, an out-of-range last
index throws, and the five vectors are compacted.  `v_A` is untouched. -/
def removeVariablesSubset (s : IFState) (indices : List ℕ) (ordered : Bool) :
    Except VarError IFState :=
  if indices.isEmpty then
    if s.x.isEmpty then .ok s
    else .ok { s with x := [], assetIndices := [], assetType := [],
                      cost := [], disinvestmentCost := [] }
  else
    let sorted := if ordered then indices else indices.mergeSort (· ≤ ·)
    if sorted.getLast? = none ∨ sorted.getLastD 0 ≥ s.x.length then
      .error .invalidIndex
    else .ok { s with
      x := compact s.x sorted
      assetIndices := compact s.assetIndices sorted
      assetType := compact s.assetType sorted
      cost := compact s.cost sorted
      disinvestmentCost := compact s.disinvestmentCost sorted }

end IFState

/-! ## The inter-stage state bridge (investment_solver.cpp)

The `callback` installed on the `SDDPGreedySolver` imprints stage `t` final
state onto stage `t+1`: it walks the two stages' Block trees in lockstep
(breadth-first in the source), checks that the numbers of nested Blocks
match, and, per matched node, applies the first applicable of
`update_hydro_unit`, `update_thermal_unit`, `update_battery_unit`.  Each
update touches only the matched node's own data and any structural mismatch
aborts the whole transfer, so the embedding below walks the trees
recursively: it errors exactly when the source's breadth-first walk throws,
and produces the same per-node updates on success.

The thermal initial up/down-time propagation is active in the source only
when simulating a single scenario (`simulate_investment && single_scenario`);
the embedding covers the default regime, in which that update is skipped. -/

/-- The data of a `HydroUnitBlock` used by the bridge: one flow-rate
trajectory per generator (each of length `time_horizon`) and the initial
flow rates. -/
structure HydroData where
  flowRate : List (List ℚ)
  initialFlowRate : List ℚ
deriving DecidableEq, Repr

/-- `HydroUnitBlock::get_number_generators`. -/
def HydroData.numberGenerators (h : HydroData) : ℕ := h.flowRate.length

/-- The data of a `ThermalUnitBlock` used by the bridge. -/
structure ThermalData where
  activePower : List ℚ
  initialPower : ℚ
deriving DecidableEq, Repr

/-- The data of a `BatteryUnitBlock` used by the bridge. -/
structure BatteryData where
  activePower : List ℚ
  storageLevel : List ℚ
  initialPower : ℚ
  initialStorage : ℚ
deriving DecidableEq, Repr

/-- The dynamic kind of a Block as seen by the bridge's `dynamic_cast`s:
a hydro, thermal or battery unit with its bridged data, or any other Block
kind (the tag distinguishes kinds the bridge does not inspect, e.g.
`IntermittentUnitBlock` from `DCNetworkBlock`). -/
inductive Payload where
  | hydro (h : HydroData)
  | thermal (t : ThermalData)
  | battery (b : BatteryData)
  | other (tag : ℕ)
deriving DecidableEq, Repr

/-- A Block tree: the node's own (bridge-visible) data and its nested
Blocks. -/
inductive BlockTree where
  | node (payload : Payload) (children : List BlockTree)

namespace BlockTree

/-- The payload at the root. -/
def payload : BlockTree → Payload
  | .node p _ => p

/-- The nested Blocks (`get_nested_Blocks`). -/
def children : BlockTree → List BlockTree
  | .node _ cs => cs

end BlockTree

/-- The structure-mismatch `std::logic_error`s thrown by the bridge
("UCBlocks at stages t-1 and t do not have the same structure" and the
hydro generator-count message). -/
inductive BridgeError where
  | structureMismatch
deriving DecidableEq, Repr

/-- `update_hydro_unit(previous_block, block)`: `none` when neither Block is
a `HydroUnitBlock` (the source returns `false`); a structure mismatch when
only one is, or when the generator counts differ; otherwise the updated
stage-`t+1` payload, whose initial flow rates are the stage-`t` flow rates
at the last time index. -/
def update_hydro_unit (previous_block block : Payload) :
    Except BridgeError (Option Payload) :=
  match previous_block, block with
  | .hydro previous_unit, .hydro unit =>
    if previous_unit.numberGenerators ≠ unit.numberGenerators then
      .error .structureMismatch
    else
      let time_horizon := (previous_unit.flowRate.getD 0 []).length
      let flow_rate := previous_unit.flowRate.map
        (fun fr => fr.getD (time_horizon - 1) 0)
      .ok (some (.hydro { unit with initialFlowRate := flow_rate }))
  | .hydro _, _ => .error .structureMismatch
  | _, .hydro _ => .error .structureMismatch
  | _, _ => .ok none

/-- `update_thermal_unit` in the default (multi-scenario) regime: propagate
the last active power as the initial power. -/
def update_thermal_unit (previous_block block : Payload) :
    Except BridgeError (Option Payload) :=
  match previous_block, block with
  | .thermal previous_unit, .thermal unit =>
    let time_horizon := previous_unit.activePower.length
    .ok (some (.thermal
      { unit with initialPower := previous_unit.activePower.getD (time_horizon - 1) 0 }))
  | .thermal _, _ => .error .structureMismatch
  | _, .thermal _ => .error .structureMismatch
  | _, _ => .ok none

/-- `update_battery_unit`: propagate the last active power and the last
storage level. -/
def update_battery_unit (previous_block block : Payload) :
    Except BridgeError (Option Payload) :=
  match previous_block, block with
  | .battery previous_unit, .battery unit =>
    let time_horizon := previous_unit.activePower.length
    .ok (some (.battery
      { unit with
        initialPower := previous_unit.activePower.getD (time_horizon - 1) 0,
        initialStorage :=
          previous_unit.storageLevel.getD (time_horizon - 1) 0 }))
  | .battery _, _ => .error .structureMismatch
  | _, .battery _ => .error .structureMismatch
  | _, _ => .ok none

/-- The chain
`update_hydro_unit(..) || update_thermal_unit(..) || update_battery_unit(..)`
applied to a matched pair of nodes; a node that none of the three updaters
recognizes is left as it is. -/
def update_units (previous_block block : Payload) :
    Except BridgeError Payload := do
  match ← update_hydro_unit previous_block block with
  | some p => return p
  | none =>
    match ← update_thermal_unit previous_block block with
    | some p => return p
    | none =>
      match ← update_battery_unit previous_block block with
      | some p => return p
      | none => return block

mutual

/-- The per-node work of `callback`: check that the numbers of nested Blocks
agree, update the node's own data, and recurse into the matched children. -/
def bridge (previous_block block : BlockTree) :
    Except BridgeError BlockTree :=
  match previous_block, block with
  | .node pp pcs, .node cp ccs =>
    if ccs.length ≠ pcs.length then .error .structureMismatch
    else do
      let payload ← update_units pp cp
      let children ← bridgeChildren pcs ccs
      return .node payload children

/-- The recursion of `bridge` over matched lists of nested Blocks. -/
def bridgeChildren (previous_blocks blocks : List BlockTree) :
    Except BridgeError (List BlockTree) :=
  match previous_blocks, blocks with
  | [], _ => .ok []
  | _, [] => .ok []
  | p :: ps, c :: cs => do
    let c' ← bridge p c
    let cs' ← bridgeChildren ps cs
    return c' :: cs'

end

/-- `callback(sddp_block, stage)` for `stage ≥ 1`, as acting on the pair of
unit-commitment Block trees of stages `stage - 1` and `stage`. -/
def callback (previous_uc_block uc_block : BlockTree) :
    Except BridgeError BlockTree :=
  bridge previous_uc_block uc_block

/-! ## Auxiliary notions used by the statements -/

namespace GlobalPool

/-- Whether at least one summand of a linear combination names a
linearization that the pool marks diagonal. -/
def anyDiagonal (p : GlobalPool) (L : List (ℕ × ℚ)) : Bool :=
  L.any (fun q => p.is_diagonal.getD q.1 false)

/-- The sum of the multipliers of the diagonal summands of a linear
combination. -/
def sumDiagonalMultipliers (p : GlobalPool) (L : List (ℕ × ℚ)) : ℚ :=
  ((L.filter (fun q => p.is_diagonal.getD q.1 false)).map (fun q => q.2)).sum

end GlobalPool

namespace IFState

/-- The `s_j` of the specification's vertical-cut constant formula: the
`j`-th variable's lower bound when reformulated bounds are active and that
bound is finite, and `0` otherwise. -/
def claimSVal (s : IFState) (j : ℕ) : ℚ :=
  if s.reformulatedBounds ∧ (s.lowerBound.getD j none).isSome then
    (s.lowerBound.getD j none).getD 0
  else 0

/-- The state presenting the same external point without the bound
reformulation: the flag is cleared and every variable holds its external
(shifted-back) value. -/
def externalize (s : IFState) : IFState :=
  { s with reformulatedBounds := false,
           x := (List.range s.x.length).map (fun i => s.get_var_value i false) }

/-- The five per-variable vectors (`v_x`, `v_asset_indices`, `v_asset_type`,
`v_cost`, `v_disinvestment_cost`) all have the same number of entries. -/
def aligned (s : IFState) : Prop :=
  s.assetIndices.length = s.x.length ∧ s.assetType.length = s.x.length ∧
  s.cost.length = s.x.length ∧ s.disinvestmentCost.length = s.x.length

/-- The scenario objective value observed by the loop (0 for a scenario with
no solution, which never contributes to the reduction). -/
def scenValue : ScenOutcome → ℚ
  | .noSolution => 0
  | .ok v _ => v

/-- The linearization contribution of a scenario ([] when none was
produced). -/
def scenLin : ScenOutcome → List ℚ
  | .ok _ (.ok g) => g
  | _ => []

end IFState

namespace Payload

/-- The Block kinds that the bridge's updaters recognize through their
`dynamic_cast`s. -/
def isBridgedUnit : Payload → Bool
  | .hydro _ => true
  | .thermal _ => true
  | .battery _ => true
  | .other _ => false

/-- A discriminator of the dynamic kind of a Block (two Blocks are of the
same kind iff their indices agree). -/
def kindIndex : Payload → ℕ
  | .hydro _ => 0
  | .thermal _ => 1
  | .battery _ => 2
  | .other tag => 3 + tag

end Payload

/-! ## Claim C10 -/

/-- C10: `is_convex()` returns `true` and `is_concave()` returns `false`
unconditionally, for every state of the `InvestmentFunction` — in
particular whatever the inner Block's objective sense is. -/
theorem is_convex_true_is_concave_false (s : IFState) :
    s.is_convex = true ∧ s.is_concave = false :=
  ⟨rfl, rfl⟩

/-! ## Claim C1

`store_combination_of_linearizations` accumulates the combined constant over
*all* summands, but for the coefficients the first summand only resizes the
accumulator to a vector of zeros — its own contribution `weight * coeffs` is
never added (InvestmentFunction.cpp:2772–2777).  The composition law of the
specification therefore fails: at the specification's own example the stored
coefficients are `(0, 0.5)` instead of `(0.5, 0.5)`, while the constant is
the correct `0.5a + 0.5b`. -/

/-- A pool holding the two diagonal linearizations of the specification's
scenario: coefficients `(1, 0)` and `(0, 1)`, constants `a = 2` and
`b = 4`. -/
def cexPool : GlobalPool where
  linearization_constants := [some 2, some 4, none]
  linearization_coefficients := [[1, 0], [0, 1], []]
  is_diagonal := [true, true, true]

/-- C1: evaluating `store_combination_of_linearizations` at the
specification's example — combine names 0 and 1, holding diagonal
linearizations with coefficients `(1,0)`, `(0,1)` and constants `2`, `4`,
with weights `0.5` and `0.5` into name 2 — stores coefficients `(0, 0.5)`
and constant `3`: the constant is the claimed weighted sum but the
coefficients are not, because the first summand's coefficient contribution
`0.5 · (1, 0)` is dropped. -/
theorem store_combination_drops_first_summand :
    cexPool.store_combination_of_linearizations [(0, 1/2), (1, 1/2)] 2
        (1/1000000) =
      .ok { linearization_constants := [some 2, some 4, some 3],
            linearization_coefficients := [[1, 0], [0, 1], [0, 1/2]],
            is_diagonal := [true, true, true] } ∧
    [(0 : ℚ), 1/2] ≠ [1/2 * 1 + 1/2 * 0, 1/2 * 0 + 1/2 * 1] := by
  constructor
  · norm_num [GlobalPool.store_combination_of_linearizations, GlobalPool.combLoop,
      GlobalPool.combStep, GlobalPool.size, GlobalPool.nanAdd, GlobalPool.nanMul,
      GlobalPool.combineVec, GlobalPool.store, List.getD, cexPool, Except.bind, bind,
      List.set, List.replicate, List.zipWith]
  · norm_num

/-! ## Claim C7: validity rules of `store_combination_of_linearizations` -/

namespace GlobalPool

lemma anyDiagonal_nil (p : GlobalPool) : anyDiagonal p [] = false := rfl

lemma anyDiagonal_cons (p : GlobalPool) (q : ℕ × ℚ) (rest : List (ℕ × ℚ)) :
    anyDiagonal p (q :: rest) =
      (p.is_diagonal.getD q.1 false || anyDiagonal p rest) := by
  simp [anyDiagonal]

lemma sumDiagonalMultipliers_nil (p : GlobalPool) :
    sumDiagonalMultipliers p [] = 0 := rfl

lemma sumDiagonalMultipliers_cons (p : GlobalPool) (q : ℕ × ℚ)
    (rest : List (ℕ × ℚ)) :
    sumDiagonalMultipliers p (q :: rest) =
      (if p.is_diagonal.getD q.1 false then q.2 else 0) +
        sumDiagonalMultipliers p rest := by
  unfold sumDiagonalMultipliers
  rw [List.filter_cons]
  by_cases hd : p.is_diagonal.getD q.1 false = true
  · rw [if_pos hd, if_pos hd, List.map_cons, List.sum_cons]
  · rw [Bool.not_eq_true] at hd
    have hd' : p.is_diagonal[q.1]?.getD false = false := by
      rw [← List.getD_eq_getElem?_getD]; exact hd
    rw [if_neg (by simp [hd']), if_neg (by simp [hd']), zero_add]

/-- A step of the combination loop on a multiplier that passes the
`-AAccMlt` check succeeds and accumulates as the source's loop body does. -/
lemma combStep_ok_of_not_lt (p : GlobalPool) (tol : ℚ) (acc : CombAcc)
    (q : ℕ × ℚ) (h : ¬ q.2 < -tol) :
    combStep p tol acc q =
      .ok { diagonal_linearization :=
              acc.diagonal_linearization || p.is_diagonal.getD q.1 false,
            coefficients :=
              if acc.coefficients.isEmpty then
                List.replicate (p.linearization_coefficients.getD q.1 []).length 0
              else combineVec acc.coefficients
                (p.linearization_coefficients.getD q.1 []) q.2,
            constant := nanAdd acc.constant
              (nanMul q.2 (p.linearization_constants.getD q.1 none)),
            coeff_sum_diagonal := acc.coeff_sum_diagonal +
              (if p.is_diagonal.getD q.1 false then q.2 else 0) } := by
  rw [combStep]
  rw [if_neg h]
  by_cases hd : p.is_diagonal.getD q.1 false = true
  · rw [hd]; simp
  · rw [Bool.not_eq_true] at hd
    rw [hd]; simp

/-- The combination loop throws the invalid-coefficient error as soon as
some multiplier is below `-AAccMlt`. -/
lemma combLoop_error_of_bad (p : GlobalPool) (tol : ℚ) :
    ∀ (L : List (ℕ × ℚ)) (acc : CombAcc), (∃ q ∈ L, q.2 < -tol) →
      combLoop p tol acc L = .error .invalidCoefficient := by
  intro L
  induction L with
  | nil => intro acc h; simp at h
  | cons q rest ih =>
    intro acc h
    by_cases hq : q.2 < -tol
    · rw [combLoop]
      have hstep : combStep p tol acc q = .error .invalidCoefficient := by
        rw [combStep]; rw [if_pos hq]
      rw [hstep]; rfl
    · rcases h with ⟨r, hr, hrbad⟩
      rcases List.mem_cons.mp hr with rfl | hmem
      · exact absurd hrbad hq
      · rw [combLoop, combStep_ok_of_not_lt p tol acc q hq]
        exact ih _ ⟨r, hmem, hrbad⟩

/-- When every multiplier passes the `-AAccMlt` check, the combination loop
succeeds, its diagonality flag records whether any summand is diagonal, and
its multiplier sum totals the diagonal summands' multipliers. -/
lemma combLoop_ok_of_good (p : GlobalPool) (tol : ℚ) :
    ∀ (L : List (ℕ × ℚ)) (acc : CombAcc), (∀ q ∈ L, ¬ q.2 < -tol) →
      ∃ acc', combLoop p tol acc L = .ok acc' ∧
        acc'.diagonal_linearization =
          (acc.diagonal_linearization || anyDiagonal p L) ∧
        acc'.coeff_sum_diagonal =
          acc.coeff_sum_diagonal + sumDiagonalMultipliers p L := by
  intro L
  induction L with
  | nil =>
    intro acc _
    exact ⟨acc, rfl, by simp [anyDiagonal_nil], by simp [sumDiagonalMultipliers_nil]⟩
  | cons q rest ih =>
    intro acc h
    have hq : ¬ q.2 < -tol := h q (List.mem_cons_self q rest)
    rw [combLoop, combStep_ok_of_not_lt p tol acc q hq]
    obtain ⟨acc', hloop, hdiag, hsum⟩ :=
      ih _ (fun r hr => h r (List.mem_cons_of_mem q hr))
    refine ⟨acc', hloop, ?_, ?_⟩
    · rw [hdiag]
      dsimp only
      rw [anyDiagonal_cons, Bool.or_assoc]
    · rw [hsum]
      dsimp only
      rw [sumDiagonalMultipliers_cons]
      ring

/-- C7: for a valid name and a nonempty combination (over a pool whose
diagonality vector matches its capacity),
`store_combination_of_linearizations(L, name)` fails if and only if some
multiplier in `L` is smaller than `-AAccMlt`, or some summand is diagonal
and the sum of the diagonal multipliers differs from 1 by more than
`AAccMlt * K` (`K` the number of summands); every failure is one of the two
invalid-combination errors; and on success the stored result is marked
diagonal exactly when at least one summand is diagonal (hence vertical
otherwise). -/
theorem store_combination_validity (p : GlobalPool) (L : List (ℕ × ℚ))
    (name : ℕ) (tol : ℚ) (hname : name < p.size) (hL : L ≠ [])
    (hlen : p.is_diagonal.length = p.size) :
    ((∃ e, p.store_combination_of_linearizations L name tol = .error e) ↔
      ((∃ q ∈ L, q.2 < -tol) ∨
        (anyDiagonal p L = true ∧
          |(1 : ℚ) - sumDiagonalMultipliers p L| > tol * L.length))) ∧
    (∀ e, p.store_combination_of_linearizations L name tol = .error e →
      e = .invalidCoefficient ∨ e = .nonConvexCombination) ∧
    (∀ p', p.store_combination_of_linearizations L name tol = .ok p' →
      p'.is_diagonal.getD name false = anyDiagonal p L) := by
  have hsize : ¬ name ≥ p.size := not_le.mpr hname
  have hemp : L.isEmpty = false := by
    cases L with
    | nil => exact absurd rfl hL
    | cons a as => rfl
  by_cases hbad : ∃ q ∈ L, q.2 < -tol
  · have hloop := combLoop_error_of_bad p tol L
      { diagonal_linearization := false, coefficients := [],
        constant := some 0, coeff_sum_diagonal := 0 } hbad
    have hrun : p.store_combination_of_linearizations L name tol =
        .error .invalidCoefficient := by
      rw [store_combination_of_linearizations, if_neg hsize, hemp]
      simp only [Bool.false_eq_true, if_false]
      rw [hloop]
      rfl
    refine ⟨?_, ?_, ?_⟩
    · exact ⟨fun _ => Or.inl hbad, fun _ => ⟨_, hrun⟩⟩
    · intro e he
      rw [hrun] at he
      exact Or.inl (Except.error.inj he).symm
    · intro p' hp'
      rw [hrun] at hp'
      exact absurd hp' (by simp)
  · obtain ⟨acc', hloop, hdiag, hsum⟩ := combLoop_ok_of_good p tol L
      { diagonal_linearization := false, coefficients := [],
        constant := some 0, coeff_sum_diagonal := 0 }
      (by push_neg at hbad; intro q hq; exact not_lt.mpr (hbad q hq))
    have hdiag' : acc'.diagonal_linearization = anyDiagonal p L := by
      rw [hdiag]; simp
    have hsum' : acc'.coeff_sum_diagonal = sumDiagonalMultipliers p L := by
      rw [hsum]; simp
    by_cases hcond : anyDiagonal p L = true ∧
        |(1 : ℚ) - sumDiagonalMultipliers p L| > tol * L.length
    · have hrun : p.store_combination_of_linearizations L name tol =
          .error .nonConvexCombination := by
        rw [store_combination_of_linearizations, if_neg hsize, hemp]
        simp only [Bool.false_eq_true, if_false]
        rw [hloop]
        show (if acc'.diagonal_linearization = true ∧
            tol * L.length < |1 - acc'.coeff_sum_diagonal| then
            Except.error PoolError.nonConvexCombination
          else Except.ok
            (p.store acc'.constant acc'.coefficients name
              acc'.diagonal_linearization)) = _
        rw [if_pos (by rw [hdiag', hsum']; exact hcond)]
      refine ⟨?_, ?_, ?_⟩
      · exact ⟨fun _ => Or.inr hcond, fun _ => ⟨_, hrun⟩⟩
      · intro e he
        rw [hrun] at he
        exact Or.inr (Except.error.inj he).symm
      · intro p' hp'
        rw [hrun] at hp'
        exact absurd hp' (by simp)
    · have hrun : p.store_combination_of_linearizations L name tol =
          .ok (p.store acc'.constant acc'.coefficients name
            acc'.diagonal_linearization) := by
        rw [store_combination_of_linearizations, if_neg hsize, hemp]
        simp only [Bool.false_eq_true, if_false]
        rw [hloop]
        show (if acc'.diagonal_linearization = true ∧
            tol * L.length < |1 - acc'.coeff_sum_diagonal| then
            Except.error PoolError.nonConvexCombination
          else Except.ok
            (p.store acc'.constant acc'.coefficients name
              acc'.diagonal_linearization)) = _
        rw [if_neg (by rw [hdiag', hsum']; exact hcond)]
      refine ⟨?_, ?_, ?_⟩
      · constructor
        · intro ⟨e, he⟩
          rw [hrun] at he
          exact absurd he (by simp)
        · intro hor
          rcases hor with hb | hc
          · exact absurd hb hbad
          · exact absurd hc hcond
      · intro e he
        rw [hrun] at he
        exact absurd he (by simp)
      · intro p' hp'
        rw [hrun] at hp'
        have := (Except.ok.inj hp').symm
        subst this
        show (p.is_diagonal.set name acc'.diagonal_linearization).getD name false = _
        rw [← hdiag']
        have hname' : name < p.is_diagonal.length := by rw [hlen]; exact hname
        rw [List.getD_eq_getElem?_getD, List.getElem?_set_self (by exact hname')]
        rfl

end GlobalPool

/-- A pool with two diagonal linearizations (names 0 and 1) and a free third
slot, used to instantiate the combination-validity theorem. -/
def convPool : GlobalPool where
  linearization_constants := [some 1, some 2, none]
  linearization_coefficients := [[1, 0], [0, 1], []]
  is_diagonal := [true, true, false]

/-- Witness for C7: combining the two diagonal linearizations of `convPool`
with weights `0.5` and `0.4` (diagonal weights summing to `0.9`, outside the
tolerance band) fails, as the validity theorem predicts. -/
theorem store_combination_validity_witness :
    (2 < convPool.size ∧ ([((0 : ℕ), (1 : ℚ)/2), (1, 2/5)] : List (ℕ × ℚ)) ≠ [] ∧
      convPool.is_diagonal.length = convPool.size) ∧
    (∃ e, convPool.store_combination_of_linearizations
      [(0, 1/2), (1, 2/5)] 2 (1/1000000) = .error e) := by
  have hname : 2 < convPool.size := by norm_num [convPool, GlobalPool.size]
  have hL : ([((0 : ℕ), (1 : ℚ)/2), (1, 2/5)] : List (ℕ × ℚ)) ≠ [] := by simp
  have hlen : convPool.is_diagonal.length = convPool.size := by
    norm_num [convPool, GlobalPool.size]
  have h := GlobalPool.store_combination_validity convPool
    [(0, 1/2), (1, 2/5)] 2 (1/1000000) hname hL hlen
  refine ⟨⟨hname, hL, hlen⟩, h.1.mpr (Or.inr ⟨?_, ?_⟩)⟩
  · norm_num [GlobalPool.anyDiagonal, convPool, List.getD]
  · have habs : |(1 : ℚ)/10| = 1/10 := abs_of_nonneg (by norm_num)
    norm_num [GlobalPool.sumDiagonalMultipliers, convPool, List.getD,
      List.filter, habs]

end InvestmentFunction


namespace InvestmentFunction
namespace LoopState

lemma loopIter_of_interrupt (computeLin : Bool) (st : LoopState)
    (o : ScenOutcome) (h : st.interrupt = true) :
    loopIter computeLin st o = st := by
  rw [loopIter, if_pos h]

lemma foldl_loopIter_of_interrupt (computeLin : Bool) (scen : List ScenOutcome)
    (st : LoopState) (h : st.interrupt = true) :
    scen.foldl (loopIter computeLin) st = st := by
  induction scen with
  | nil => rfl
  | cons o rest ih =>
    rw [List.foldl_cons, loopIter_of_interrupt computeLin st o h]
    exact ih

lemma lockSubBlock_replicate (m : ℕ) (hm : 0 < m) :
    lockSubBlock (List.replicate m false) =
      some (0, true :: List.replicate (m - 1) false) := by
  obtain ⟨k, rfl⟩ := Nat.exists_eq_add_of_lt hm
  simp only [Nat.zero_add, List.replicate_succ]
  rw [lockSubBlock]
  simp [List.findIdx?_cons]

lemma unlock_relock (m : ℕ) (hm : 0 < m) :
    unlockSubBlock (true :: List.replicate (m - 1) false) 0 =
      List.replicate m false := by
  obtain ⟨k, rfl⟩ := Nat.exists_eq_add_of_lt hm
  simp [unlockSubBlock, List.replicate_succ, List.set]

/-- An iteration on a strictly successful scenario, from a non-interrupted
all-unlocked state: the value and the linearization are accumulated, the
slot is released again. -/
lemma loopIter_ok (st : LoopState) (v : ℚ) (g : List ℚ) (m : ℕ) (hm : 0 < m)
    (hi : st.interrupt = false) (hl : st.locks = List.replicate m false) :
    loopIter true st (.ok v (.ok g)) =
      { interrupt := false,
        simulationValue := st.simulationValue + v,
        linearization := st.linearization.zipWith (· + ·) g,
        locks := List.replicate m false,
        evaluated := st.evaluated + 1 } := by
  rw [loopIter, if_neg (by rw [hi]; exact Bool.false_ne_true), hl,
    lockSubBlock_replicate m hm]
  simp only
  rw [unlock_relock m hm, hi]
  simp

/-- An iteration on a failing scenario (no primal solution, or a throwing
linearization update) sets the interrupt flag and releases the slot. -/
lemma loopIter_failure (st : LoopState) (o : ScenOutcome) (m : ℕ) (hm : 0 < m)
    (hi : st.interrupt = false) (hl : st.locks = List.replicate m false)
    (hf : o.isFailure = true) :
    loopIter true st o =
      { st with interrupt := true, locks := List.replicate m false,
                evaluated := st.evaluated + 1 } := by
  rw [loopIter, if_neg (by rw [hi]; exact Bool.false_ne_true), hl,
    lockSubBlock_replicate m hm]
  cases o with
  | noSolution =>
    simp only
    rw [unlock_relock m hm]
  | ok v lu =>
    cases lu with
    | error e =>
      simp only
      rw [unlock_relock m hm]
      simp
    | ok g => simp [ScenOutcome.isFailure] at hf

/-- Running the loop over strictly successful scenarios: never interrupted,
values and linearization contributions accumulated, every slot free again,
one solver call per scenario. -/
lemma loop_run_ok (m : ℕ) (hm : 0 < m) :
    ∀ (scen : List ScenOutcome),
      (∀ o ∈ scen, ∃ v g, o = .ok v (.ok g)) →
      ∀ st : LoopState, st.interrupt = false →
        st.locks = List.replicate m false →
        scen.foldl (loopIter true) st =
          { interrupt := false,
            simulationValue :=
              st.simulationValue + (scen.map IFState.scenValue).sum,
            linearization := scen.foldl
              (fun acc o => acc.zipWith (· + ·) (IFState.scenLin o))
              st.linearization,
            locks := List.replicate m false,
            evaluated := st.evaluated + scen.length } := by
  intro scen
  induction scen with
  | nil =>
    intro _ st hi hl
    simp only [List.foldl_nil, List.map_nil, List.sum_nil, List.length_nil]
    cases st
    simp_all
  | cons o rest ih =>
    intro hok st hi hl
    obtain ⟨v, g, rfl⟩ := hok o (List.mem_cons_self o rest)
    rw [List.foldl_cons, loopIter_ok st v g m hm hi hl]
    rw [ih (fun r hr => hok r (List.mem_cons_of_mem _ hr)) _ rfl rfl]
    simp only [List.map_cons, List.sum_cons, List.foldl_cons,
      List.length_cons, IFState.scenValue, IFState.scenLin,
      LoopState.mk.injEq]
    exact ⟨trivial, by ring, trivial, trivial, by omega⟩

/-- Running the loop over a list containing a failing scenario: the loop is
interrupted, and every slot is free when it ends. -/
lemma loop_run_failure (m : ℕ) (hm : 0 < m) :
    ∀ (scen : List ScenOutcome), (∃ o ∈ scen, o.isFailure = true) →
      ∀ st : LoopState, st.interrupt = false →
        st.locks = List.replicate m false →
        (scen.foldl (loopIter true) st).interrupt = true ∧
        (scen.foldl (loopIter true) st).locks = List.replicate m false := by
  intro scen
  induction scen with
  | nil => intro h; simp at h
  | cons o rest ih =>
    intro hfail st hi hl
    by_cases hf : o.isFailure = true
    · rw [List.foldl_cons, loopIter_failure st o m hm hi hl hf,
        foldl_loopIter_of_interrupt true rest _ rfl]
      exact ⟨rfl, rfl⟩
    · have hok : ∃ v g, o = .ok v (.ok g) := by
        cases o with
        | noSolution => simp [ScenOutcome.isFailure] at hf
        | ok v lu =>
          cases lu with
          | error e => simp [ScenOutcome.isFailure] at hf
          | ok g => exact ⟨v, g, rfl⟩
      obtain ⟨v, g, rfl⟩ := hok
      have hfail' : ∃ o ∈ rest, o.isFailure = true := by
        rcases hfail with ⟨r, hr, hrf⟩
        rcases List.mem_cons.mp hr with rfl | hmem
        · exact absurd hrf hf
        · exact ⟨r, hmem, hrf⟩
      rw [List.foldl_cons, loopIter_ok st v g m hm hi hl]
      exact ih hfail' _ rfl rfl

end LoopState
end InvestmentFunction

namespace InvestmentFunction
namespace IFState

lemma findViolation_zero_eq_none_iff (s : IFState) :
    s.findViolation 0 = none ↔ ∀ i < s.A.length, s.rowViolation i = none := by
  rw [findViolation, List.drop_zero, List.findSome?_eq_none_iff]
  constructor
  · intro h i hi
    exact Option.map_eq_none'.mp (h i (List.mem_range.mpr hi))
  · intro h i hi
    rw [h i (List.mem_range.mp hi)]
    rfl

lemma findViolation_zero_some (s : IFState) (i : ℕ) (side : Side)
    (h : s.findViolation 0 = some (i, side)) :
    i < s.A.length ∧ s.rowViolation i = some side := by
  rw [findViolation, List.drop_zero] at h
  obtain ⟨a, ha, hfa⟩ := List.exists_of_findSome?_eq_some h
  cases hrv : s.rowViolation a with
  | none => rw [hrv] at hfa; simp at hfa
  | some sd =>
    rw [hrv] at hfa
    simp only [Option.map_some', Option.some.injEq, Prod.mk.injEq] at hfa
    obtain ⟨rfl, rfl⟩ := hfa
    exact ⟨List.mem_range.mp ha, hrv⟩

lemma rowViolation_lhs_finite (s : IFState) (i : ℕ)
    (h : s.rowViolation i = some .lhs) :
    ∃ l, s.constraintsLowerBound.getD i none = some l := by
  cases hlb : s.constraintsLowerBound.getD i none with
  | some l => exact ⟨l, rfl⟩
  | none =>
    rw [rowViolation, hlb] at h
    dsimp only at h
    split at h
    · split at h
      · exact absurd h (by simp)
      · exact absurd h (by simp)
    · exact absurd h (by simp)

lemma rowViolation_rhs_finite (s : IFState) (i : ℕ)
    (h : s.rowViolation i = some .rhs) :
    ∃ u, s.constraintsUpperBound.getD i none = some u := by
  cases hub : s.constraintsUpperBound.getD i none with
  | some u => exact ⟨u, rfl⟩
  | none =>
    rw [rowViolation, hub] at h
    dsimp only at h
    split at h
    · rename_i side heq
      obtain rfl : side = Side.rhs := Option.some.inj h
      split at heq
      · split at heq
        · exact absurd (Option.some.inj heq) (by simp)
        · exact absurd heq (by simp)
      · exact absurd heq (by simp)
    · exact absurd h (by simp)

lemma compute_infeasible (s : IFState) (scen : List ScenOutcome)
    (vc : ℕ × Side) (h : s.findViolation 0 = some vc) :
    s.compute scen =
      { status := .kOK, hasValue := true, value := worstValue s.sense,
        hasDiagonalLinearization := false, violatedConstraint := some vc,
        linearization := List.replicate s.x.length 0,
        locks := List.replicate s.numSubBlocks false,
        scenariosEvaluated := 0, eventsFired := true } := by
  rw [compute, h]

lemma compute_feasible_ok (s : IFState) (scen : List ScenOutcome)
    (hfeas : s.findViolation 0 = none)
    (hok : ∀ o ∈ scen, ∃ v g, o = .ok v (.ok g))
    (hcl : s.computeLinearization = true) (hsb : 0 < s.numSubBlocks) :
    s.compute scen =
      { status := .kOK, hasValue := true,
        value := .fin ((scen.map scenValue).sum / scen.length +
          ((List.range s.x.length).map s.linearTermValue).sum),
        hasDiagonalLinearization := true,
        violatedConstraint := none,
        linearization := (((scen.foldl
            (fun acc o => acc.zipWith (· + ·) (scenLin o))
            (List.replicate s.x.length 0)).map
              (· / (scen.length : ℚ))).enum).map
          (fun ig => ig.2 + s.linearTermDelta ig.1),
        locks := List.replicate s.numSubBlocks false,
        scenariosEvaluated := scen.length, eventsFired := true } := by
  rw [compute, hfeas]
  have hloop : scenarioLoop s.computeLinearization s.numSubBlocks
      s.x.length scen =
      { interrupt := false,
        simulationValue := 0 + (scen.map scenValue).sum,
        linearization := scen.foldl
          (fun acc o => acc.zipWith (· + ·) (scenLin o))
          (List.replicate s.x.length 0),
        locks := List.replicate s.numSubBlocks false,
        evaluated := 0 + scen.length } := by
    rw [hcl, scenarioLoop]
    exact LoopState.loop_run_ok s.numSubBlocks hsb scen hok _ rfl rfl
  rw [hloop]
  simp only [Bool.false_eq_true, if_false, zero_add, hcl]

lemma compute_feasible_failure (s : IFState) (scen : List ScenOutcome)
    (hfeas : s.findViolation 0 = none)
    (hfail : ∃ o ∈ scen, o.isFailure = true)
    (hcl : s.computeLinearization = true) (hsb : 0 < s.numSubBlocks) :
    ∃ final : LoopState,
      s.compute scen =
        { status := .kError, hasValue := false,
          value := worstValue s.sense,
          hasDiagonalLinearization := false, violatedConstraint := none,
          linearization := final.linearization,
          locks := List.replicate s.numSubBlocks false,
          scenariosEvaluated := final.evaluated, eventsFired := true } := by
  have hrun := LoopState.loop_run_failure s.numSubBlocks hsb scen hfail
    { interrupt := false, simulationValue := 0,
      linearization := List.replicate s.x.length 0,
      locks := List.replicate s.numSubBlocks false, evaluated := 0 }
    rfl rfl
  have hint : (scenarioLoop s.computeLinearization s.numSubBlocks
      s.x.length scen).interrupt = true := by
    rw [hcl]; exact hrun.1
  have hlocks : (scenarioLoop s.computeLinearization s.numSubBlocks
      s.x.length scen).locks = List.replicate s.numSubBlocks false := by
    rw [hcl]; exact hrun.2
  refine ⟨scenarioLoop s.computeLinearization s.numSubBlocks
    s.x.length scen, ?_⟩
  rw [compute, hfeas]
  simp only [hint, if_true, hlocks, List.length_replicate]

end IFState
end InvestmentFunction

namespace InvestmentFunction
open IFState

/-- C2: under a successful inner evaluation (every scenario's solver
produces a primal solution and the linearization updates do not throw, the
linearization being computed, at least one sub-Block present), `compute`
returns a finite value and makes a diagonal linearization available
(`has_linearization(true)`) if and only if every linear side constraint
holds at `x` within the relative tolerance; otherwise it returns
`worst_value` (`+∞` under a minimization inner Block), performs no scenario
evaluation, and a vertical linearization is available
(`has_linearization(false)`). -/
theorem compute_feasibility_law (s : IFState) (scen : List ScenOutcome)
    (_hscen : scen ≠ []) (hok : ∀ o ∈ scen, ∃ v g, o = .ok v (.ok g))
    (hcl : s.computeLinearization = true) (hsb : 0 < s.numSubBlocks) :
    (((∃ v, (s.compute scen).value = .fin v) ∧
        has_linearization (s.compute scen) true = true) ↔
      (∀ i < s.A.length, s.rowViolation i = none)) ∧
    ((¬ ∀ i < s.A.length, s.rowViolation i = none) →
      (s.compute scen).value = worstValue s.sense ∧
      (s.sense = .min → (s.compute scen).value = .posInf) ∧
      (s.compute scen).scenariosEvaluated = 0 ∧
      has_linearization (s.compute scen) false = true) := by
  cases hfv : s.findViolation 0 with
  | none =>
    have hfeas := (findViolation_zero_eq_none_iff s).mp hfv
    rw [compute_feasible_ok s scen hfv hok hcl hsb]
    constructor
    · constructor
      · intro _; exact hfeas
      · intro _
        exact ⟨⟨_, rfl⟩, rfl⟩
    · intro hnot; exact absurd hfeas hnot
  | some vc =>
    have hinfeas : ¬ ∀ i < s.A.length, s.rowViolation i = none := by
      intro hall
      rw [(findViolation_zero_eq_none_iff s).mpr hall] at hfv
      exact absurd hfv (by simp)
    rw [compute_infeasible s scen vc hfv]
    constructor
    · constructor
      · intro ⟨⟨v, hv⟩, _⟩
        exfalso
        cases hs : s.sense <;> rw [hs] at hv <;> simp [worstValue] at hv
      · intro hall; exact absurd hall hinfeas
    · intro _
      refine ⟨rfl, ?_, rfl, rfl⟩
      intro hs; rw [hs]; rfl

/-- The specification's infeasibility scenario: two assets, one constraint
`x_0 + x_1 ≤ 2`, evaluated at `x = (3, 1)`. -/
def s2state : IFState where
  x := [3, 1]
  lowerBound := []
  A := [[1, 1]]
  constraintsLowerBound := [none]
  constraintsUpperBound := [some 2]
  constraintsTolerance := 1/1000000
  reformulatedBounds := false
  installedQuantity := [0, 0]
  cost := [10, 20]
  disinvestmentCost := [0, 0]
  assetIndices := [0, 1]
  assetType := [.eUnitBlock, .eUnitBlock]
  computeLinearization := true
  numSubBlocks := 1
  sense := .min

/-- Witness for C2 at the specification's infeasibility scenario: the sum
`4` violates `x_0 + x_1 ≤ 2`, so `compute` publishes `+∞`, runs no
scenario, and offers a vertical linearization. -/
theorem compute_feasibility_law_witness :
    (([ScenOutcome.ok 0 (.ok [0, 0])] : List ScenOutcome) ≠ [] ∧
      s2state.computeLinearization = true ∧ 0 < s2state.numSubBlocks) ∧
    ((s2state.compute [.ok 0 (.ok [0, 0])]).value = .posInf ∧
      (s2state.compute [.ok 0 (.ok [0, 0])]).scenariosEvaluated = 0 ∧
      has_linearization (s2state.compute [.ok 0 (.ok [0, 0])]) false = true) := by
  have hok : ∀ o ∈ ([ScenOutcome.ok 0 (.ok [0, 0])] : List ScenOutcome),
      ∃ v g, o = .ok v (.ok g) := by
    intro o ho
    rw [List.mem_singleton] at ho
    exact ⟨0, [0, 0], ho⟩
  have h := compute_feasibility_law s2state [.ok 0 (.ok [0, 0])]
    (by simp) hok rfl (by norm_num [s2state])
  have hrv : s2state.rowViolation 0 = some Side.rhs := by
    norm_num [rowViolation, compute_linear_constraint_value, get_var_value,
      s2state, List.enum, List.enumFrom,
      (show ([3, 1] : List ℚ)[1] = 1 from rfl)]
  have hnot : ¬ ∀ i < s2state.A.length, s2state.rowViolation i = none := by
    intro hall
    have := hall 0 (by norm_num [s2state])
    rw [hrv] at this
    exact absurd this (by simp)
  have hc := h.2 hnot
  exact ⟨⟨by simp, rfl, by norm_num [s2state]⟩, hc.2.1 rfl, hc.2.2.1, hc.2.2.2⟩

/-- C6: when the feasibility gate passes but some scenario of the loop
fails — its solver produces no primal solution, or its linearization update
throws — `compute` returns status `kError` with value `worst_value`, every
sub-Block slot is unlocked when it returns, and the termination event
handlers are fired.  (`compute` is a total function of the embedding: the
exception raised inside the loop is caught there and never propagates
out.) -/
theorem compute_failure_handling (s : IFState) (scen : List ScenOutcome)
    (hfeas : s.findViolation 0 = none)
    (hfail : ∃ o ∈ scen, o.isFailure = true)
    (hcl : s.computeLinearization = true) (hsb : 0 < s.numSubBlocks) :
    (s.compute scen).status = .kError ∧
    (s.compute scen).value = worstValue s.sense ∧
    (s.compute scen).locks = List.replicate s.numSubBlocks false ∧
    (s.compute scen).eventsFired = true := by
  obtain ⟨final, hc⟩ := compute_feasible_failure s scen hfeas hfail hcl hsb
  rw [hc]
  exact ⟨rfl, rfl, rfl, rfl⟩

/-- A feasible one-asset state with two sub-Blocks, for the
error-handling witness. -/
def s6state : IFState where
  x := [1]
  lowerBound := []
  A := []
  constraintsLowerBound := []
  constraintsUpperBound := []
  constraintsTolerance := 1/1000000
  reformulatedBounds := false
  installedQuantity := [0]
  cost := [1]
  disinvestmentCost := [0]
  assetIndices := [0]
  assetType := [.eUnitBlock]
  computeLinearization := true
  numSubBlocks := 2
  sense := .min

/-- Witness for C6: a single scenario whose solver produces no primal
solution drives `compute` to `kError`, `+∞`, all slots free, events
fired. -/
theorem compute_failure_handling_witness :
    (s6state.findViolation 0 = none ∧
      (∃ o ∈ ([ScenOutcome.noSolution] : List ScenOutcome),
        o.isFailure = true) ∧
      s6state.computeLinearization = true ∧ 0 < s6state.numSubBlocks) ∧
    ((s6state.compute [.noSolution]).status = .kError ∧
      (s6state.compute [.noSolution]).value = .posInf ∧
      (s6state.compute [.noSolution]).locks = [false, false] ∧
      (s6state.compute [.noSolution]).eventsFired = true) := by
  have hfeas : s6state.findViolation 0 = none := rfl
  have hfail : ∃ o ∈ ([ScenOutcome.noSolution] : List ScenOutcome),
      o.isFailure = true :=
    ⟨.noSolution, List.mem_singleton.mpr rfl, rfl⟩
  have h := compute_failure_handling s6state [.noSolution] hfeas hfail rfl
    (by norm_num [s6state])
  exact ⟨⟨hfeas, hfail, rfl, by norm_num [s6state]⟩,
    h.1, h.2.1, by rw [h.2.2.1]; rfl, h.2.2.2⟩

end InvestmentFunction


namespace InvestmentFunction
namespace IFState

lemma sum_map_zero (l : List (ℕ × ℚ)) : (l.map (fun _ => (0:ℚ))).sum = 0 := by
  induction l <;> simp_all

lemma verticalAlpha_eq_claimSVal_sum (s : IFState) (i : ℕ) :
    s.verticalAlpha i =
      (((s.A.getD i []).enum).map (fun jc => jc.2 * s.claimSVal jc.1)).sum := by
  rw [verticalAlpha]
  by_cases hr : s.reformulatedBounds = true
  · rw [if_pos hr]
    refine congrArg _ (List.map_congr_left ?_)
    intro jc _
    cases hlb : s.lowerBound.getD jc.1 none with
    | some l => rw [claimSVal, hlb, if_pos (by simp [hr])]; rfl
    | none => rw [claimSVal, hlb, if_neg (by simp)]; ring
  · rw [Bool.not_eq_true] at hr
    rw [if_neg (by simp [hr])]
    have : ∀ jc : ℕ × ℚ, jc.2 * s.claimSVal jc.1 = 0 := by
      intro jc
      rw [claimSVal, if_neg (by simp [hr])]
      ring
    rw [List.map_congr_left (fun jc _ => this jc), sum_map_zero]

lemma compute_violatedConstraint (s : IFState) (scen : List ScenOutcome) :
    (s.compute scen).violatedConstraint = s.findViolation 0 := by
  cases hfv : s.findViolation 0 with
  | some w => rw [compute_infeasible s scen w hfv]
  | none =>
    rw [compute, hfv]
    dsimp only
    split <;> rfl

lemma getD_map_range (f : ℕ → ℚ) (n j : ℕ) (h : j < n) :
    ((List.range n).map f).getD j 0 = f j := by
  rw [List.getD_eq_getElem?_getD, List.getElem?_map, List.getElem?_range h]
  rfl

/-- C3: whenever `compute` has recorded a violated `(row i, side)` of the
linear side constraints, a vertical linearization is available; it reads
back with coefficients `-a_i` (lower side) or `+a_i` (upper side), and with
constant `ℓ_i - Σ_j a_{ij} s_j` (lower side) or `Σ_j a_{ij} s_j - u_i`
(upper side), where `s_j` is the `j`-th variable's finite lower bound under
reformulated bounds and `0` otherwise; the violated side's constraint bound
is finite. -/
theorem vertical_linearization_readback (s : IFState)
    (scen : List ScenOutcome) (i : ℕ) (side : Side)
    (h : (s.compute scen).violatedConstraint = some (i, side)) :
    has_linearization (s.compute scen) false = true ∧
    (∀ j, j < s.x.length →
      (s.vertical_linearization_coefficients i side).getD j 0 =
        (if side = .lhs then -((s.A.getD i []).getD j 0)
         else (s.A.getD i []).getD j 0)) ∧
    (side = .lhs → ∃ l, s.constraintsLowerBound.getD i none = some l ∧
      s.vertical_linearization_constant i side =
        some (l - (((s.A.getD i []).enum).map
          (fun jc => jc.2 * s.claimSVal jc.1)).sum)) ∧
    (side = .rhs → ∃ u, s.constraintsUpperBound.getD i none = some u ∧
      s.vertical_linearization_constant i side =
        some ((((s.A.getD i []).enum).map
          (fun jc => jc.2 * s.claimSVal jc.1)).sum - u)) := by
  have hfv : s.findViolation 0 = some (i, side) := by
    rw [← compute_violatedConstraint s scen]; exact h
  obtain ⟨hi, hrv⟩ := findViolation_zero_some s i side hfv
  refine ⟨?_, ?_, ?_, ?_⟩
  · rw [has_linearization, if_neg (by simp), h]
    rfl
  · intro j hj
    rw [vertical_linearization_coefficients, getD_map_range _ _ _ hj]
    cases side with
    | lhs => simp [sideSign]
    | rhs => simp [sideSign]
  · intro hside
    subst hside
    obtain ⟨l, hl⟩ := rowViolation_lhs_finite s i hrv
    refine ⟨l, hl, ?_⟩
    rw [vertical_linearization_constant]
    rw [hl, Option.map_some', verticalAlpha_eq_claimSVal_sum]
  · intro hside
    subst hside
    obtain ⟨u, hu⟩ := rowViolation_rhs_finite s i hrv
    refine ⟨u, hu, ?_⟩
    rw [vertical_linearization_constant]
    rw [hu, Option.map_some', verticalAlpha_eq_claimSVal_sum]

end IFState

/-- A reformulated one-variable state violating the lower side of its one
constraint: external `x = 1 + 2 = 3`, row `x ≥ 10`. -/
def s3state : IFState where
  x := [1]
  lowerBound := [some 2]
  A := [[1]]
  constraintsLowerBound := [some 10]
  constraintsUpperBound := [none]
  constraintsTolerance := 1/1000000
  reformulatedBounds := true
  installedQuantity := [0]
  cost := [1]
  disinvestmentCost := [0]
  assetIndices := [0]
  assetType := [.eUnitBlock]
  computeLinearization := true
  numSubBlocks := 1
  sense := .min

/-- Witness for C3: at `s3state` the recorded violation is `(0, lower)`;
the vertical cut reads back with coefficient `-1` and constant
`10 - 1·2 = 8`. -/
theorem vertical_linearization_readback_witness :
    ((s3state.compute [.ok 0 (.ok [0])]).violatedConstraint =
      some (0, Side.lhs)) ∧
    IFState.has_linearization (s3state.compute [.ok 0 (.ok [0])]) false = true ∧
    (s3state.vertical_linearization_coefficients 0 .lhs).getD 0 0 = -1 ∧
    s3state.vertical_linearization_constant 0 .lhs = some 8 := by
  have hrv : s3state.rowViolation 0 = some Side.lhs := by
    norm_num [IFState.rowViolation, IFState.compute_linear_constraint_value,
      IFState.get_var_value, s3state, List.enum, List.enumFrom]
  have hfv : s3state.findViolation 0 = some (0, Side.lhs) := by
    rw [IFState.findViolation, List.drop_zero]
    have : s3state.A.length = 1 := rfl
    rw [this]
    rw [show List.range 1 = [0] from rfl]
    rw [List.findSome?_cons]
    rw [hrv]
    rfl
  have h : (s3state.compute [.ok 0 (.ok [0])]).violatedConstraint =
      some (0, Side.lhs) := by
    rw [IFState.compute_violatedConstraint]; exact hfv
  have hthm := IFState.vertical_linearization_readback s3state
    [.ok 0 (.ok [0])] 0 Side.lhs h
  refine ⟨h, hthm.1, ?_, ?_⟩
  · have := hthm.2.1 0 (by norm_num [s3state])
    rw [this]
    norm_num [s3state]
  · obtain ⟨l, hl, hconst⟩ := hthm.2.2.1 rfl
    have hl10 : l = 10 := by
      have : s3state.constraintsLowerBound.getD 0 none = some 10 := rfl
      rw [this] at hl
      exact (Option.some.inj hl).symm
    subst hl10
    rw [hconst]
    norm_num [IFState.claimSVal, s3state, List.enum, List.enumFrom]

end InvestmentFunction


namespace InvestmentFunction
namespace IFState

lemma getD_replicate_zero (n i : ℕ) :
    (List.replicate n (0:ℚ)).getD i 0 = 0 := by
  rw [List.getD_eq_getElem?_getD, List.getElem?_replicate]
  split <;> rfl

lemma zipWith_add_getD (a b : List ℚ) (i : ℕ) (hb : b.length = a.length)
    (hi : i < a.length) :
    (a.zipWith (· + ·) b).getD i 0 = a.getD i 0 + b.getD i 0 := by
  rw [List.getD_eq_getElem?_getD, List.getD_eq_getElem?_getD,
    List.getD_eq_getElem?_getD, List.getElem?_zipWith]
  rw [List.getElem?_eq_getElem hi, List.getElem?_eq_getElem (by rw [hb]; exact hi)]
  rfl

lemma foldl_zipWith_length (n : ℕ) :
    ∀ (scen : List ScenOutcome) (init : List ℚ), init.length = n →
      (∀ o ∈ scen, (scenLin o).length = n) →
      (scen.foldl (fun acc o => acc.zipWith (· + ·) (scenLin o)) init).length
        = n := by
  intro scen
  induction scen with
  | nil => intro init hinit _; exact hinit
  | cons o rest ih =>
    intro init hinit hg
    rw [List.foldl_cons]
    refine ih _ ?_ (fun r hr => hg r (List.mem_cons_of_mem o hr))
    rw [List.length_zipWith, hinit, hg o (List.mem_cons_self o rest)]
    exact Nat.min_self n

lemma foldl_zipWith_getD (n i : ℕ) (hi : i < n) :
    ∀ (scen : List ScenOutcome) (init : List ℚ), init.length = n →
      (∀ o ∈ scen, (scenLin o).length = n) →
      (scen.foldl (fun acc o => acc.zipWith (· + ·) (scenLin o)) init).getD i 0
        = init.getD i 0 + (scen.map (fun o => (scenLin o).getD i 0)).sum := by
  intro scen
  induction scen with
  | nil => intro init _ _; simp
  | cons o rest ih =>
    intro init hinit hg
    rw [List.foldl_cons]
    have hgo : (scenLin o).length = n := hg o (List.mem_cons_self o rest)
    have hlen : (init.zipWith (· + ·) (scenLin o)).length = n := by
      rw [List.length_zipWith, hinit, hgo]; exact Nat.min_self n
    rw [ih _ hlen (fun r hr => hg r (List.mem_cons_of_mem o hr))]
    rw [zipWith_add_getD init (scenLin o) i (by rw [hinit, hgo]) (by rw [hinit]; exact hi)]
    rw [List.map_cons, List.sum_cons]
    ring

lemma getD_map_div (l : List ℚ) (c : ℚ) (i : ℕ) :
    (l.map (· / c)).getD i 0 = l.getD i 0 / c := by
  rw [List.getD_eq_getElem?_getD, List.getD_eq_getElem?_getD, List.getElem?_map]
  cases l[i]? with
  | none => simp
  | some a => simp

lemma getD_enum_map_add (l : List ℚ) (f : ℕ → ℚ) (i : ℕ) (hi : i < l.length) :
    ((l.enum).map (fun ig => ig.2 + f ig.1)).getD i 0 = l.getD i 0 + f i := by
  rw [List.getD_eq_getElem?_getD, List.getElem?_map, List.enum,
    List.getElem?_enumFrom]
  rw [List.getElem?_eq_getElem hi, List.getD_eq_getElem?_getD,
    List.getElem?_eq_getElem hi]
  simp

/-- C4: for a successful evaluation (feasible point, every scenario solved,
contributions sized to the decision vector), the value published by
`compute` is the scenario average plus, per asset `i` with installed
quantity `q_i` and externalized value `ξ_i`, the term
`cost_i (ξ_i - q_i)` when `ξ_i > q_i` and
`disinvestment_cost_i (q_i - ξ_i)` otherwise; component `i` of the diagonal
linearization is the averaged scenario contribution plus `cost_i`,
respectively minus `disinvestment_cost_i`. -/
theorem compute_linear_term (s : IFState) (scen : List ScenOutcome)
    (hfeas : s.findViolation 0 = none)
    (hok : ∀ o ∈ scen, ∃ v g, o = .ok v (.ok g))
    (hg : ∀ o ∈ scen, (scenLin o).length = s.x.length)
    (hcl : s.computeLinearization = true) (hsb : 0 < s.numSubBlocks)
    (i : ℕ) (hi : i < s.x.length) :
    (s.compute scen).value = .fin ((scen.map scenValue).sum / scen.length +
      ((List.range s.x.length).map (fun k =>
        if s.get_var_value k false > s.get_installed_quantity k then
          s.get_cost k * (s.get_var_value k false - s.get_installed_quantity k)
        else s.get_disinvestment_cost k *
          (s.get_installed_quantity k - s.get_var_value k false))).sum) ∧
    (s.compute scen).linearization.getD i 0 =
      (scen.map (fun o => (scenLin o).getD i 0)).sum / scen.length +
        (if s.get_var_value i false > s.get_installed_quantity i then
          s.get_cost i
        else -s.get_disinvestment_cost i) := by
  rw [compute_feasible_ok s scen hfeas hok hcl hsb]
  constructor
  · rfl
  · have hflen : (scen.foldl
        (fun acc o => acc.zipWith (· + ·) (scenLin o))
        (List.replicate s.x.length 0)).length = s.x.length :=
      foldl_zipWith_length s.x.length scen _ (List.length_replicate _ _) hg
    have hmlen : ((scen.foldl
        (fun acc o => acc.zipWith (· + ·) (scenLin o))
        (List.replicate s.x.length 0)).map (· / (scen.length : ℚ))).length
          = s.x.length := by
      rw [List.length_map]; exact hflen
    show (((scen.foldl (fun acc o => acc.zipWith (· + ·) (scenLin o))
        (List.replicate s.x.length 0)).map
          (· / (scen.length : ℚ))).enum.map
        (fun ig => ig.2 + s.linearTermDelta ig.1)).getD i 0 = _
    rw [getD_enum_map_add _ _ i (by rw [hmlen]; exact hi)]
    rw [getD_map_div]
    rw [foldl_zipWith_getD s.x.length i hi scen _ (List.length_replicate _ _) hg]
    rw [getD_replicate_zero, zero_add]
    rfl

end IFState
end InvestmentFunction

namespace InvestmentFunction

/-- The specification's disinvestment scenario at `x = 2`: one asset,
installed quantity 4, cost 10, disinvestment cost 3, zero operational
cost. -/
def s4a : IFState where
  x := [2]
  lowerBound := []
  A := []
  constraintsLowerBound := []
  constraintsUpperBound := []
  constraintsTolerance := 1/1000000
  reformulatedBounds := false
  installedQuantity := [4]
  cost := [10]
  disinvestmentCost := [3]
  assetIndices := [0]
  assetType := [.eUnitBlock]
  computeLinearization := true
  numSubBlocks := 1
  sense := .min

/-- The same state evaluated at `x = 6`. -/
def s4b : IFState := { s4a with x := [6] }

/-- Witness for C4 at the specification's numbers: value `3·(4-2) = 6` and
subgradient `-3` at `x = 2`; value `10·(6-4) = 20` and subgradient `+10`
at `x = 6`. -/
theorem compute_linear_term_witness :
    (s4a.findViolation 0 = none ∧ s4a.computeLinearization = true ∧
      0 < s4a.numSubBlocks ∧ 0 < s4a.x.length) ∧
    (s4a.compute [.ok 0 (.ok [0])]).value = .fin 6 ∧
    (s4a.compute [.ok 0 (.ok [0])]).linearization.getD 0 0 = -3 ∧
    (s4b.compute [.ok 0 (.ok [0])]).value = .fin 20 ∧
    (s4b.compute [.ok 0 (.ok [0])]).linearization.getD 0 0 = 10 := by
  have hok : ∀ o ∈ ([ScenOutcome.ok 0 (.ok [0])] : List ScenOutcome),
      ∃ v g, o = .ok v (.ok g) := by
    intro o ho
    rw [List.mem_singleton] at ho
    exact ⟨0, [0], ho⟩
  have hga : ∀ o ∈ ([ScenOutcome.ok 0 (.ok [0])] : List ScenOutcome),
      (IFState.scenLin o).length = s4a.x.length := by
    intro o ho
    rw [List.mem_singleton] at ho
    subst ho
    rfl
  have hgb : ∀ o ∈ ([ScenOutcome.ok 0 (.ok [0])] : List ScenOutcome),
      (IFState.scenLin o).length = s4b.x.length := by
    intro o ho
    rw [List.mem_singleton] at ho
    subst ho
    rfl
  have ha := IFState.compute_linear_term s4a [.ok 0 (.ok [0])] rfl hok hga
    rfl (by norm_num [s4a]) 0 (by norm_num [s4a])
  have hb := IFState.compute_linear_term s4b [.ok 0 (.ok [0])] rfl hok hgb
    rfl (by norm_num [s4b, s4a]) 0 (by norm_num [s4b, s4a])
  refine ⟨⟨rfl, rfl, by norm_num [s4a], by norm_num [s4a]⟩, ?_, ?_, ?_, ?_⟩
  · rw [ha.1]
    norm_num [IFState.scenValue, IFState.get_var_value,
      IFState.get_installed_quantity, IFState.get_cost,
      IFState.get_disinvestment_cost, s4a, List.range_succ]
  · rw [ha.2]
    norm_num [IFState.scenLin, IFState.get_var_value,
      IFState.get_installed_quantity, IFState.get_cost,
      IFState.get_disinvestment_cost, s4a]
  · rw [hb.1]
    norm_num [IFState.scenValue, IFState.get_var_value,
      IFState.get_installed_quantity, IFState.get_cost,
      IFState.get_disinvestment_cost, s4b, s4a, List.range_succ]
  · rw [hb.2]
    norm_num [IFState.scenLin, IFState.get_var_value,
      IFState.get_installed_quantity, IFState.get_cost,
      IFState.get_disinvestment_cost, s4b, s4a]

end InvestmentFunction


namespace InvestmentFunction
namespace IFState

lemma sum_enumFrom_mul (f : ℕ → ℚ) :
    ∀ (l : List ℚ) (k : ℕ),
      ((l.enumFrom k).map (fun jc => jc.2 * f jc.1)).sum =
        ((List.range l.length).map (fun t => l.getD t 0 * f (k + t))).sum := by
  intro l
  induction l with
  | nil => intro k; simp
  | cons a tl ih =>
    intro k
    rw [List.enumFrom_cons, List.map_cons, List.sum_cons]
    rw [List.length_cons, List.range_succ_eq_map, List.map_cons, List.sum_cons]
    rw [List.getD_cons_zero, Nat.add_zero, ih (k + 1)]
    congr 1
    rw [List.map_map]
    refine congrArg List.sum (List.map_congr_left ?_)
    intro t _
    show tl.getD t 0 * f (k + 1 + t) = (a :: tl).getD (t + 1) 0 * f (k + (t + 1))
    rw [List.getD_cons_succ, show k + 1 + t = k + (t + 1) from by omega]

lemma sum_enum_mul (l : List ℚ) (f : ℕ → ℚ) :
    ((l.enum).map (fun jc => jc.2 * f jc.1)).sum =
      ((List.range l.length).map (fun t => l.getD t 0 * f t)).sum := by
  rw [List.enum, sum_enumFrom_mul f l 0]
  simp

lemma sum_map_add_distrib (l : List ℕ) (f g : ℕ → ℚ) :
    (l.map (fun t => f t + g t)).sum = (l.map f).sum + (l.map g).sum := by
  induction l with
  | nil => simp
  | cons a tl ih => simp only [List.map_cons, List.sum_cons, ih]; ring

/-- Requesting the actual (internal) value never shifts, whatever the
reformulation flag and the bound. -/
lemma get_var_value_actual (s : IFState) (t : ℕ) :
    s.get_var_value t true = s.x.getD t 0 := by
  unfold get_var_value
  split
  · simp_all
  · rfl

/-- Under reformulated bounds the external read is the internal value plus
the specification's `s_t` (the finite lower bound or 0). -/
lemma get_var_value_false_eq (s : IFState) (href : s.reformulatedBounds = true)
    (t : ℕ) : s.get_var_value t false = s.x.getD t 0 + s.claimSVal t := by
  unfold get_var_value
  split
  · rename_i l heq1 heq2 heq3
    rw [claimSVal, heq3]
    simp [href]
  · rename_i hno
    rw [claimSVal, href]
    cases hlb : s.lowerBound.getD t none with
    | none => simp
    | some l =>
      exfalso
      exact hno l href rfl hlb

/-- C5 (amended): when reformulated bounds are active, external reads
translate by the finite lower bound; and each cut constant produced under
reformulation equals the constant produced without reformulation at the
same external point (the `externalize`d state) plus the inner product of
the cut's coefficients with the specification's vector `s`
(`s_j = ℓ_j` when finite, else 0) — equivalently, the value of the affine
cut at the same external point is unchanged.  This holds for the vertical
cut constant on both sides and for the diagonal cut constant alike. -/
theorem reformulation_translation (s : IFState)
    (href : s.reformulatedBounds = true) :
    (∀ i l, s.lowerBound.getD i none = some l →
      s.get_var_value i false = s.x.getD i 0 + l) ∧
    (∀ i, (s.A.getD i []).length = s.x.length →
      s.vertical_linearization_constant i .lhs =
        ((s.externalize).vertical_linearization_constant i .lhs).map
          (fun c => c +
            (((s.vertical_linearization_coefficients i .lhs).enum).map
              (fun jg => jg.2 * s.claimSVal jg.1)).sum)) ∧
    (∀ i, (s.A.getD i []).length = s.x.length →
      s.vertical_linearization_constant i .rhs =
        ((s.externalize).vertical_linearization_constant i .rhs).map
          (fun c => c +
            (((s.vertical_linearization_coefficients i .rhs).enum).map
              (fun jg => jg.2 * s.claimSVal jg.1)).sum)) ∧
    (∀ (v : ℚ) (g : List ℚ), g.length = s.x.length →
      s.diagonal_linearization_constant v g =
        (s.externalize).diagonal_linearization_constant v g +
          ((g.enum).map (fun jg => jg.2 * s.claimSVal jg.1)).sum) := by
  have hext_alpha : ∀ i, (s.externalize).verticalAlpha i = 0 := by
    intro i
    rw [verticalAlpha]
    have h0 : (s.externalize).reformulatedBounds = false := rfl
    rw [h0]
    simp
  have hcoeff_sum : ∀ i side, (s.A.getD i []).length = s.x.length →
      (((s.vertical_linearization_coefficients i side).enum).map
        (fun jg => jg.2 * s.claimSVal jg.1)).sum =
      sideSign side * s.verticalAlpha i := by
    intro i side hrow
    rw [sum_enum_mul]
    have hlen : (s.vertical_linearization_coefficients i side).length
        = s.x.length := by
      rw [vertical_linearization_coefficients, List.length_map,
        List.length_range]
    rw [hlen]
    rw [verticalAlpha_eq_claimSVal_sum, sum_enum_mul, hrow,
      ← List.sum_map_mul_left]
    refine congrArg List.sum (List.map_congr_left ?_)
    intro t ht
    rw [List.mem_range] at ht
    rw [vertical_linearization_coefficients, getD_map_range _ _ _ ht]
    ring
  refine ⟨?_, ?_, ?_, ?_⟩
  · intro i l hl
    rw [get_var_value_false_eq s href i, claimSVal, href, hl]
    simp
  · intro i hrow
    rw [vertical_linearization_constant, vertical_linearization_constant]
    have h1 : (s.externalize).constraintsLowerBound =
        s.constraintsLowerBound := rfl
    rw [h1, hext_alpha i]
    cases hlb : s.constraintsLowerBound.getD i none with
    | none => rfl
    | some l =>
      rw [Option.map_some', Option.map_some', Option.map_some']
      rw [hcoeff_sum i .lhs hrow, sideSign]
      congr 1
      ring
  · intro i hrow
    rw [vertical_linearization_constant, vertical_linearization_constant]
    have h1 : (s.externalize).constraintsUpperBound =
        s.constraintsUpperBound := rfl
    rw [h1, hext_alpha i]
    cases hub : s.constraintsUpperBound.getD i none with
    | none => rfl
    | some u =>
      rw [Option.map_some', Option.map_some', Option.map_some']
      rw [hcoeff_sum i .rhs hrow, sideSign]
      congr 1
      ring
  · intro v g hg
    rw [diagonal_linearization_constant, diagonal_linearization_constant]
    rw [sum_enum_mul g (fun i => s.get_var_value i true),
      sum_enum_mul g (fun i => (s.externalize).get_var_value i true),
      sum_enum_mul g (fun i => s.claimSVal i)]
    have hsplit :
        ((List.range g.length).map
          (fun t => g.getD t 0 * (s.externalize).get_var_value t true)).sum =
        ((List.range g.length).map
          (fun t => g.getD t 0 * s.get_var_value t true)).sum +
        ((List.range g.length).map
          (fun t => g.getD t 0 * s.claimSVal t)).sum := by
      rw [← sum_map_add_distrib]
      refine congrArg List.sum (List.map_congr_left ?_)
      intro t ht
      rw [List.mem_range] at ht
      have hxe : (s.externalize).get_var_value t true =
          s.x.getD t 0 + s.claimSVal t := by
        rw [get_var_value_actual]
        have h2 : (s.externalize).x.getD t 0 = s.get_var_value t false := by
          rw [hg] at ht
          exact getD_map_range _ _ _ ht
        rw [h2, get_var_value_false_eq s href t]
      rw [hxe, get_var_value_actual]
      ring
    rw [hsplit]
    ring

end IFState
end InvestmentFunction

namespace InvestmentFunction

/-- The specification's reformulation scenario: one variable with bounds
`[2, 5]`, reformulation on, internal `x' = 1` (external `x = 3`), one side
constraint `x ≥ 10`. -/
def s5ref : IFState where
  x := [1]
  lowerBound := [some 2]
  A := [[1]]
  constraintsLowerBound := [some 10]
  constraintsUpperBound := [none]
  constraintsTolerance := 1/1000000
  reformulatedBounds := true
  installedQuantity := [0]
  cost := [1]
  disinvestmentCost := [0]
  assetIndices := [0]
  assetType := [.eUnitBlock]
  computeLinearization := true
  numSubBlocks := 1
  sense := .min

/-- The same external point presented without reformulation. -/
def s5noref : IFState := { s5ref with reformulatedBounds := false, x := [3] }

/-- Counterexample to C5 as stated: at the same external point `x = 3` the
vertical cut constant under reformulation is `10 - 1·2 = 8` while without
reformulation it is `10` — the constants are not equal (they differ by the
inner product of the cut's coefficients with the finite lower bounds). -/
theorem reformulation_changes_vertical_constant :
    s5ref.get_var_value 0 false = s5noref.get_var_value 0 false ∧
    s5ref.vertical_linearization_constant 0 .lhs = some 8 ∧
    s5noref.vertical_linearization_constant 0 .lhs = some 10 ∧
    s5ref.vertical_linearization_constant 0 .lhs ≠
      s5noref.vertical_linearization_constant 0 .lhs := by
  refine ⟨?_, ?_, ?_, ?_⟩
  · norm_num [IFState.get_var_value, s5ref, s5noref]
  · norm_num [IFState.vertical_linearization_constant, IFState.verticalAlpha,
      s5ref, List.enum, List.enumFrom]
  · norm_num [IFState.vertical_linearization_constant, IFState.verticalAlpha,
      s5noref, s5ref, List.enum, List.enumFrom]
  · norm_num [IFState.vertical_linearization_constant, IFState.verticalAlpha,
      s5noref, s5ref, List.enum, List.enumFrom]

/-- Witness for the amended C5 at the specification's scenario. -/
theorem reformulation_translation_witness :
    (s5ref.reformulatedBounds = true ∧
      s5ref.lowerBound.getD 0 none = some 2 ∧
      (s5ref.A.getD 0 []).length = s5ref.x.length) ∧
    s5ref.get_var_value 0 false = s5ref.x.getD 0 0 + 2 ∧
    s5ref.vertical_linearization_constant 0 .lhs =
      ((s5ref.externalize).vertical_linearization_constant 0 .lhs).map
        (fun c => c +
          (((s5ref.vertical_linearization_coefficients 0 .lhs).enum).map
            (fun jg => jg.2 * s5ref.claimSVal jg.1)).sum) := by
  have h := IFState.reformulation_translation s5ref rfl
  exact ⟨⟨rfl, rfl, rfl⟩, h.1 0 2 rfl, h.2.1 0 rfl⟩

end InvestmentFunction

namespace InvestmentFunction

/-- A one-asset state with one linear side constraint, all five
per-variable vectors aligned, used against the removal operations. -/
def s8 : IFState where
  x := [0]
  lowerBound := []
  A := [[1]]
  constraintsLowerBound := [none]
  constraintsUpperBound := [some 5]
  constraintsTolerance := 1/1000000
  reformulatedBounds := false
  installedQuantity := [4]
  cost := [10]
  disinvestmentCost := [3]
  assetIndices := [0]
  assetType := [.eUnitBlock]
  computeLinearization := true
  numSubBlocks := 1
  sense := .min

/-- Counterexample to C8 as stated: after `remove_variable(0)` on `s8` the
active-variable count is 0, but the cost and disinvestment-cost vectors
still hold 1 entry each and the stored constraint still has 1 column —
`remove_variable` erases only `v_x`, `v_asset_indices` and `v_asset_type`,
and no removal operation resizes `v_A`. -/
theorem remove_variable_breaks_alignment :
    (s8.remove_variable 0).map
      (fun t => (t.x.length, t.cost.length, t.disinvestmentCost.length,
        (t.A.getD 0 []).length)) = .ok (0, 1, 1, 1) ∧ (0 : ℕ) ≠ 1 := by
  exact ⟨rfl, by simp⟩

namespace IFState

lemma length_filter_enumFrom_congr (idx : List ℕ) :
    ∀ (x : List α) (y : List β) (k : ℕ), x.length = y.length →
      ((x.enumFrom k).filter (fun p => p.1 ∉ idx)).length =
        ((y.enumFrom k).filter (fun p => p.1 ∉ idx)).length := by
  intro x
  induction x with
  | nil =>
    intro y k h
    cases y with
    | nil => rfl
    | cons b bs => simp at h
  | cons a as ih =>
    intro y k h
    cases y with
    | nil => simp at h
    | cons b bs =>
      rw [List.length_cons, List.length_cons, Nat.succ_inj] at h
      rw [List.enumFrom_cons, List.enumFrom_cons, List.filter_cons,
        List.filter_cons]
      by_cases hk : k ∉ idx
      · rw [if_pos (by simpa using hk), if_pos (by simpa using hk)]
        rw [List.length_cons, List.length_cons, ih bs (k + 1) h]
      · rw [if_neg (by simpa using hk), if_neg (by simpa using hk)]
        exact ih bs (k + 1) h

lemma compact_length_congr (x : List α) (y : List β) (idx : List ℕ)
    (h : x.length = y.length) :
    (compact x idx).length = (compact y idx).length := by
  unfold compact
  rw [List.length_take, List.length_take, List.length_map, List.length_map, h]
  congr 1
  rw [List.enum, List.enum]
  exact length_filter_enumFrom_congr idx x y 0 h

lemma eraseRange_length_congr (x : List α) (y : List β) (a b : ℕ)
    (h : x.length = y.length) :
    (eraseRange x a b).length = (eraseRange y a b).length := by
  unfold eraseRange
  rw [List.length_append, List.length_append, List.length_take,
    List.length_take, List.length_drop, List.length_drop, h]

/-- C8 (amended): `remove_variable(i)` keeps the variable, asset-index and
asset-type vectors aligned but leaves the cost and disinvestment-cost
vectors and the constraint matrix untouched; the two `remove_variables`
overloads (range, and ordered subset of valid indices) keep all five
per-variable vectors aligned; no removal operation modifies the stored
linear side constraints. -/
theorem remove_variables_alignment :
    (∀ (s : IFState) (i : ℕ), s.aligned → i < s.x.length →
      ∃ t, s.remove_variable i = .ok t ∧
        t.x.length = s.x.length - 1 ∧
        t.assetIndices.length = t.x.length ∧
        t.assetType.length = t.x.length ∧
        t.cost = s.cost ∧ t.disinvestmentCost = s.disinvestmentCost ∧
        t.A = s.A) ∧
    (∀ (s : IFState) (r : ℕ × ℕ), s.aligned →
      (s.removeVariablesRange r).aligned ∧
      (s.removeVariablesRange r).A = s.A) ∧
    (∀ (s : IFState) (indices : List ℕ), s.aligned →
      (∀ j ∈ indices, j < s.x.length) →
      ∃ t, s.removeVariablesSubset indices true = .ok t ∧
        t.aligned ∧ t.A = s.A) := by
  refine ⟨?_, ?_, ?_⟩
  · intro s i hal hi
    obtain ⟨hai, hat, hc, hd⟩ := hal
    rw [remove_variable, if_neg (not_le.mpr hi)]
    refine ⟨_, rfl, ?_, ?_, ?_, rfl, rfl, rfl⟩
    · exact List.length_eraseIdx_of_lt hi
    · show (s.assetIndices.eraseIdx i).length = (s.x.eraseIdx i).length
      rw [List.length_eraseIdx_of_lt (by rw [hai]; exact hi),
        List.length_eraseIdx_of_lt hi, hai]
    · show (s.assetType.eraseIdx i).length = (s.x.eraseIdx i).length
      rw [List.length_eraseIdx_of_lt (by rw [hat]; exact hi),
        List.length_eraseIdx_of_lt hi, hat]
  · intro s r hal
    obtain ⟨hai, hat, hc, hd⟩ := hal
    rw [removeVariablesRange]
    by_cases h1 : min r.2 s.x.length ≤ r.1
    · rw [if_pos h1]
      exact ⟨⟨hai, hat, hc, hd⟩, rfl⟩
    · rw [if_neg h1]
      by_cases h2 : r.1 = 0 ∧ min r.2 s.x.length = s.x.length
      · rw [if_pos h2]
        exact ⟨⟨rfl, rfl, rfl, rfl⟩, rfl⟩
      · rw [if_neg h2]
        refine ⟨⟨?_, ?_, ?_, ?_⟩, rfl⟩
        · exact eraseRange_length_congr _ _ _ _ hai
        · exact eraseRange_length_congr _ _ _ _ hat
        · exact eraseRange_length_congr _ _ _ _ hc
        · exact eraseRange_length_congr _ _ _ _ hd
  · intro s indices hal hbound
    obtain ⟨hai, hat, hc, hd⟩ := hal
    rw [removeVariablesSubset]
    by_cases hemp : indices.isEmpty
    · rw [if_pos hemp]
      by_cases hx : s.x.isEmpty
      · rw [if_pos hx]
        exact ⟨s, rfl, ⟨hai, hat, hc, hd⟩, rfl⟩
      · rw [if_neg hx]
        exact ⟨_, rfl, ⟨rfl, rfl, rfl, rfl⟩, rfl⟩
    · rw [if_neg hemp]
      have hne : indices ≠ [] := by
        intro hcon; rw [hcon] at hemp; exact hemp rfl
      have hsorted : (if true then indices
          else indices.mergeSort (· ≤ ·)) = indices := if_pos rfl
      rw [hsorted]
      obtain ⟨last, hlast⟩ :=
        Option.isSome_iff_exists.mp (List.getLast?_isSome.mpr hne)
      have hmem : last ∈ indices := List.mem_of_getLast?_eq_some hlast
      have hguard : ¬ (indices.getLast? = none ∨
          indices.getLastD 0 ≥ s.x.length) := by
        rintro (hn | hg)
        · rw [hlast] at hn; exact absurd hn (by simp)
        · rw [List.getLastD_eq_getLast?, hlast] at hg
          exact absurd hg (not_le.mpr (hbound last hmem))
      rw [if_neg hguard]
      refine ⟨_, rfl, ⟨?_, ?_, ?_, ?_⟩, rfl⟩
      · exact compact_length_congr _ _ _ hai
      · exact compact_length_congr _ _ _ hat
      · exact compact_length_congr _ _ _ hc
      · exact compact_length_congr _ _ _ hd

end IFState

/-- Witness for the amended C8 at `s8`. -/
theorem remove_variables_alignment_witness :
    (s8.aligned ∧ 0 < s8.x.length ∧ (∀ j ∈ ([0] : List ℕ), j < s8.x.length)) ∧
    (∃ t, s8.remove_variable 0 = .ok t ∧ t.cost = s8.cost ∧ t.A = s8.A) ∧
    ((s8.removeVariablesRange (0, 1)).aligned ∧
      (s8.removeVariablesRange (0, 1)).A = s8.A) ∧
    (∃ t, s8.removeVariablesSubset [0] true = .ok t ∧ t.aligned ∧
      t.A = s8.A) := by
  have hal : s8.aligned := ⟨rfl, rfl, rfl, rfl⟩
  have hb : ∀ j ∈ ([0] : List ℕ), j < s8.x.length := by
    intro j hj
    rw [List.mem_singleton] at hj
    subst hj
    norm_num [s8]
  have h := IFState.remove_variables_alignment
  obtain ⟨t1, ht1, _, _, _, htc, _, htA⟩ :=
    h.1 s8 0 hal (by norm_num [s8])
  obtain ⟨t3, ht3, ht3al, ht3A⟩ := h.2.2 s8 [0] hal hb
  refine ⟨⟨hal, by norm_num [s8], hb⟩, ⟨t1, ht1, htc, htA⟩, ?_, ⟨t3, ht3, ht3al, ht3A⟩⟩
  exact h.2.1 s8 (0, 1) hal

end InvestmentFunction

namespace InvestmentFunction

/-- A stage-`t` Block of a kind none of the bridge's updaters recognizes
(e.g. an `IntermittentUnitBlock`). -/
def t9prev : BlockTree := .node (.other 0) []

/-- A stage-`t+1` Block of a different unrecognized kind (e.g. a
`DCNetworkBlock`). -/
def t9cur : BlockTree := .node (.other 1) []

/-- Counterexample to C9 as stated: two matched Blocks of different kinds,
neither of them hydro, thermal or battery, have the same nested-Block count,
so `callback` succeeds — the transfer does not fail although the two
stages' trees differ in unit kinds. -/
theorem callback_misses_other_kind_mismatch :
    callback t9prev t9cur = .ok (.node (.other 1) []) ∧
    t9prev.payload ≠ t9cur.payload ∧
    t9prev.children.length = t9cur.children.length := by
  refine ⟨?_, ?_, rfl⟩
  · simp [callback, bridge, bridgeChildren, update_units, update_hydro_unit,
      update_thermal_unit, update_battery_unit, t9prev, t9cur, Except.bind,
      bind, pure, Except.pure]
  · simp [t9prev, t9cur, BlockTree.payload]

/-- C9 (amended): matched hydro units with equal generator counts get the
initial flow rate of each generator at stage `t+1` set to that generator's
flow rate at the last time index of stage `t`; the transfer fails with a
structure-mismatch error when matched hydro units have different generator
counts, when matched Blocks differ in kind with at least one of the pair a
hydro, thermal or battery unit, or when the numbers of nested Blocks
differ; and `callback` applies the per-unit update to matched leaves.
(Kind differences among other Block kinds are not detected — see the
counterexample.) -/
theorem bridge_structure_checks :
    (∀ (prev cur : HydroData),
      prev.numberGenerators = cur.numberGenerators →
      ∃ p, update_hydro_unit (.hydro prev) (.hydro cur) =
          .ok (some (.hydro p)) ∧
        p.flowRate = cur.flowRate ∧
        (∀ g, g < prev.numberGenerators →
          p.initialFlowRate.getD g 0 =
            (prev.flowRate.getD g []).getD
              ((prev.flowRate.getD 0 []).length - 1) 0)) ∧
    (∀ (prev cur : HydroData),
      prev.numberGenerators ≠ cur.numberGenerators →
      update_hydro_unit (.hydro prev) (.hydro cur) =
        .error .structureMismatch) ∧
    (∀ (p q : Payload), p.kindIndex ≠ q.kindIndex →
      (p.isBridgedUnit = true ∨ q.isBridgedUnit = true) →
      update_units p q = .error .structureMismatch) ∧
    (∀ (pp cp : Payload) (pcs ccs : List BlockTree),
      ccs.length ≠ pcs.length →
      bridge (.node pp pcs) (.node cp ccs) = .error .structureMismatch) ∧
    (∀ (pp cp p : Payload), update_units pp cp = .ok p →
      callback (.node pp []) (.node cp []) = .ok (.node p [])) := by
  refine ⟨?_, ?_, ?_, ?_, ?_⟩
  · intro prev cur hgen
    rw [update_hydro_unit]
    rw [if_neg (by rw [hgen]; exact fun hcon => hcon rfl)]
    refine ⟨_, rfl, rfl, ?_⟩
    intro g hg
    rw [HydroData.numberGenerators] at hg
    show ((prev.flowRate.map
      (fun fr => fr.getD ((prev.flowRate.getD 0 []).length - 1) 0)).getD g 0) = _
    simp only [List.getD_eq_getElem?_getD, List.getElem?_map]
    rw [List.getElem?_eq_getElem hg]
    simp only [Option.map_some', Option.getD_some]
  · intro prev cur hgen
    rw [update_hydro_unit, if_pos hgen]
  · intro p q hk hb
    cases p <;> cases q <;>
      simp_all [update_units, update_hydro_unit, update_thermal_unit,
        update_battery_unit, Payload.kindIndex, Payload.isBridgedUnit,
        Except.bind, bind, pure, Except.pure]
  · intro pp cp pcs ccs hne
    rw [bridge, if_pos hne]
  · intro pp cp p h
    rw [callback, bridge]
    rw [if_neg (by intro hcon; exact hcon rfl)]
    rw [h]
    rfl

def th9 : ThermalData where
  activePower := [1]
  initialPower := 0

def h9prev : HydroData where
  flowRate := [[1, 2], [3, 4]]
  initialFlowRate := [0, 0]

def h9cur : HydroData where
  flowRate := [[5, 6], [7, 8]]
  initialFlowRate := [9, 9]

/-- Witness for the amended C9 on concrete two-generator hydro data. -/
theorem bridge_structure_checks_witness :
    (h9prev.numberGenerators = h9cur.numberGenerators ∧
      h9prev.numberGenerators ≠ 1) ∧
    (∃ p, update_hydro_unit (.hydro h9prev) (.hydro h9cur) =
        .ok (some (.hydro p)) ∧
      p.initialFlowRate.getD 0 0 = 2 ∧ p.initialFlowRate.getD 1 0 = 4) ∧
    update_hydro_unit (.hydro h9prev)
      (.hydro { flowRate := [[5, 6]], initialFlowRate := [9] }) =
      .error .structureMismatch ∧
    update_units (.hydro h9prev) (.thermal th9) =
      .error .structureMismatch ∧
    bridge (.node (.hydro h9prev) [.node (.other 0) []])
      (.node (.hydro h9cur) []) = .error .structureMismatch := by
  have h := bridge_structure_checks
  obtain ⟨p, hp, hpflow, hpget⟩ := h.1 h9prev h9cur rfl
  refine ⟨⟨rfl, by norm_num [h9prev, HydroData.numberGenerators]⟩,
    ⟨p, hp, ?_, ?_⟩, ?_, ?_, ?_⟩
  · have := hpget 0 (by norm_num [h9prev, HydroData.numberGenerators])
    rw [this]
    norm_num [h9prev]
  · have := hpget 1 (by norm_num [h9prev, HydroData.numberGenerators])
    rw [this]
    norm_num [h9prev]
  · exact h.2.1 h9prev _ (by norm_num [h9prev, HydroData.numberGenerators])
  · exact h.2.2.1 (.hydro h9prev) (.thermal th9) (by simp [Payload.kindIndex])
      (Or.inl rfl)
  · exact h.2.2.2.1 (.hydro h9prev) (.hydro h9cur) [.node (.other 0) []] []
      (by simp)

end InvestmentFunction
